import Mathlib

/-
Verification of the DoxygenToDrawio graph-layout pipeline.

The Python source (DoxygenToDrawio.py) is shallowly embedded below:
labels are lists of characters, the node map and the various Python
dicts are association lists kept in insertion order (matching Python's
dict iteration order), and the numeric quantities that Python holds in
ints/floats are modelled as integers and rationals (every float the
program manipulates on the verified paths is an exact half-integer, so
rationals are a faithful model).
-/

attribute [local semireducible] Rat.add Rat.sub Rat.mul Rat.inv

namespace DoxToDrawio

/-- Character-list view of a string literal. -/
def sl (s : String) : List Char := s.toList

/-! ## Basic string helpers shared by the embedded functions -/

/-- Lowercase every character, as Python's `str.lower` does on ASCII labels. -/
def lowerStr (cs : List Char) : List Char := cs.map Char.toLower

/-- Drop leading characters satisfying `p`. -/
def dropLead (p : Char → Bool) (cs : List Char) : List Char := cs.dropWhile p

/-- Drop trailing characters satisfying `p`. -/
def dropTrail (p : Char → Bool) (cs : List Char) : List Char :=
  (cs.reverse.dropWhile p).reverse

/-- Python `str.strip('_')`: remove leading and trailing underscores. -/
def stripUnders (cs : List Char) : List Char :=
  dropTrail (fun c => c = '_') (dropLead (fun c => c = '_') cs)

/-- Remove every occurrence of the character `c` (Python `replace(c, '')`). -/
def remCh (c : Char) (cs : List Char) : List Char := cs.filter (fun d => d ≠ c)

/-- Python's containment test `a in b` on strings: `a` occurs contiguously in `b`. -/
def inStr (a : List Char) : List Char → Bool
  | [] => a.isEmpty
  | c :: rest => a.isPrefixOf (c :: rest) || inStr a rest

/-- Fuel-indexed worker for `replAll`; the fuel is the length of the scanned
list, which suffices because every step consumes at least one character when
the pattern is nonempty. -/
def replAllGo (pat rep : List Char) : Nat → List Char → List Char
  | 0, s => s
  | _ + 1, [] => []
  | fuel + 1, c :: rest =>
    if pat.isPrefixOf (c :: rest) then
      rep ++ replAllGo pat rep fuel (List.drop (pat.length - 1) rest)
    else
      c :: replAllGo pat rep fuel rest

/-- Python `str.replace(pat, rep)`: replace every (leftmost, non-overlapping)
occurrence of `pat` by `rep`. Used only with nonempty patterns. -/
def replAll (pat rep : List Char) (s : List Char) : List Char :=
  replAllGo pat rep s.length s

/-! ## are_labels_similar (DoxygenToDrawio.py lines 130-158) -/

/-- The fixed verb-pattern list `patterns_to_remove` from `are_labels_similar`. -/
def verbPats : List (List Char) :=
  [sl ("get_"), sl ("set_"), sl ("is_"), sl ("has_"), sl ("do_"), sl ("handle_"),
   sl ("process_"), sl ("init_"), sl ("setup_"), sl ("create_"), sl ("delete_"),
   sl ("update_")]

/-- The label normalisation inside `are_labels_similar`:
`label.lower().strip('_').replace('_', '').replace('-', '')`. -/
def normLabel (cs : List Char) : List Char :=
  remCh '-' (remCh '_' (stripUnders (lowerStr cs)))

/-- Strip every verb pattern from a normalised label (the
`patterns_to_remove` loop of `are_labels_similar`). -/
def stripVerbs (cs : List Char) : List Char :=
  verbPats.foldl (fun acc p => replAll p [] acc) cs

/-- Embedding of `are_labels_similar(label1, label2)`: exact equality, or
substring containment with the normalised lengths within a 1.5 ratio
(`max_len <= min_len * 1.5`, rendered exactly as `2 * max ≤ 3 * min`), or
equality after stripping the verb patterns from both sides. -/
def areLabelsSimilar (label1 label2 : List Char) : Bool :=
  if label1 = label2 then true
  else
    let norm1 := normLabel label1
    let norm2 := normLabel label2
    let minLen := min norm1.length norm2.length
    let maxLen := max norm1.length norm2.length
    if (inStr norm1 norm2 || inStr norm2 norm1) && (2 * maxLen ≤ 3 * minLen) then
      true
    else
      stripVerbs norm1 = stripVerbs norm2

/-! ## clean_node_label (DoxygenToDrawio.py lines 73-114)

Each `re.sub` call of the source is embedded by a function realising that
specific pattern's matching semantics (leftmost scan, greedy repetition with
backtracking where the pattern has one). -/

/-- Whitespace characters removed by Python `str.strip()`. -/
def isWs (c : Char) : Bool :=
  c = ' ' || c = '\t' || c = '\n' || c = '\r' || c = Char.ofNat 11 || c = Char.ofNat 12

/-- Python `str.strip()`. -/
def stripWs (cs : List Char) : List Char := dropTrail isWs (dropLead isWs cs)

/-- The directory alternatives of the first path-prefix pattern
`[^/]+/(?:Core/(?:Inc|Src)/|src/|include/|lib/|bin/|Source/|Headers/)`,
flattened in the regex's alternation order. -/
def dirAlts : List (List Char) :=
  [sl ("Core/Inc/"), sl ("Core/Src/"), sl ("src/"), sl ("include/"), sl ("lib/"),
   sl ("bin/"), sl ("Source/"), sl ("Headers/")]

/-- The directory alternatives shared by the second and third path patterns. -/
def dirAlts2 : List (List Char) :=
  [sl ("src/"), sl ("include/"), sl ("lib/"), sl ("bin/"), sl ("Source/"), sl ("Headers/")]

/-- First alternative that is a prefix of `cs`; returns the remainder after it. -/
def matchAlt : List (List Char) → List Char → Option (List Char)
  | [], _ => none
  | a :: rest, cs => if a.isPrefixOf cs then some (cs.drop a.length) else matchAlt rest cs

/-- Match of pattern 1 anchored at the current position: a nonempty run of
non-slash characters, a slash, then one directory alternative.  The greedy
`[^/]+` necessarily ends at the first slash, so the match is unique. -/
def p1At (cs : List Char) : Option (List Char) :=
  let run := cs.takeWhile (fun c => c ≠ '/')
  if run.isEmpty then none
  else
    match cs.drop run.length with
    | '/' :: rest => matchAlt dirAlts rest
    | _ => none

/-- Slash followed by a directory alternative (the tail of pattern 2). -/
def p2Slash (cs : List Char) : Option (List Char) :=
  match cs with
  | '/' :: rest => matchAlt dirAlts2 rest
  | _ => none

/-- Match of pattern 2 `(?:\.\./)*/(?:src/|...)` anchored at the current
position: greedily consume `../` repetitions (deepest first, backtracking to
fewer repetitions on failure, as the regex engine does), then a slash and a
directory alternative. -/
def p2At : List Char → Option (List Char)
  | '.' :: '.' :: '/' :: rest =>
    match p2At rest with
    | some r => some r
    | none => p2Slash ('.' :: '.' :: '/' :: rest)
  | cs => p2Slash cs

/-- Head match for pattern 3's tail `/(?:src/|...)/`. -/
def p3Head (cs : List Char) : Option (List Char) :=
  match cs with
  | '/' :: rest =>
    match matchAlt dirAlts2 rest with
    | some ('/' :: r2) => some r2
    | _ => none
  | _ => none

/-- Remainder after the last position where pattern 3's tail matches (the
greedy `.*` of `.*/(?:src/|...)/` selects the last occurrence). -/
def p3Last : List Char → Option (List Char)
  | [] => none
  | c :: rest =>
    match p3Last rest with
    | some r => some r
    | none => p3Head (c :: rest)

/-- Embedding of `re.sub(r'.*/(?:src/|...)/', '', label)`: if the tail matches
anywhere, everything up to and including the last occurrence is removed. -/
def p3Sub (cs : List Char) : List Char :=
  match p3Last cs with
  | some r => r
  | none => cs

/-- Fuel-indexed scanner deleting every match of `m` (replacement is empty);
on a miss it keeps one character and moves on, as `re.sub` scanning does. -/
def subDelGo (m : List Char → Option (List Char)) : Nat → List Char → List Char
  | 0, s => s
  | _ + 1, [] => []
  | fuel + 1, c :: rest =>
    match m (c :: rest) with
    | some r => subDelGo m fuel r
    | none => c :: subDelGo m fuel rest

/-- Delete every (leftmost, non-overlapping) match of `m`. -/
def subDel (m : List Char → Option (List Char)) (s : List Char) : List Char :=
  subDelGo m s.length s

/-- The file-extension alternatives of `\.(c|h|cpp|...)$`, in source order. -/
def extAlts : List (List Char) :=
  [sl ("c"), sl ("h"), sl ("cpp"), sl ("hpp"), sl ("cc"), sl ("cxx"), sl ("c++"),
   sl ("py"), sl ("pyx"), sl ("pyi"), sl ("java"), sl ("js"), sl ("ts"), sl ("jsx"),
   sl ("tsx"), sl ("go"), sl ("rs"), sl ("swift"), sl ("m"), sl ("mm"), sl ("cs"),
   sl ("php"), sl ("rb"), sl ("pl"), sl ("sh"), sl ("asm"), sl ("s")]

/-- Embedding of `re.sub(r'\.(ext|...)$', '', label)`: cut at the first dot
whose entire remaining suffix is one of the extensions (the `$` anchor forces
the suffix to coincide with an alternative). -/
def extDrop : List Char → List Char
  | [] => []
  | c :: rest => if c = '.' && extAlts.contains rest then [] else c :: extDrop rest

/-- Characters deleted by `re.sub(r'[<>{}\\/:*?"|\[\]()]', '', label)`. -/
def badChars : List Char :=
  ['<', '>', Char.ofNat 123, Char.ofNat 125, Char.ofNat 92, '/', ':', '*', '?',
   Char.ofNat 34, '|', '[', ']', '(', ')']

/-- Delete the invalid characters. -/
def remBad (cs : List Char) : List Char := cs.filter (fun c => !(badChars.contains c))

/-- Embedding of `re.sub(r'[_]{2,}', '_', label)`: every maximal run of two or
more underscores becomes a single underscore. -/
def collapseUnd : List Char → List Char
  | [] => []
  | [c] => [c]
  | '_' :: '_' :: rest => collapseUnd ('_' :: rest)
  | c :: rest => c :: collapseUnd rest

/-- The backslash-l escape sequence removed first by `clean_node_label`. -/
def bslashL : List Char := [Char.ofNat 92, 'l']

/-- Decimal rendering of a natural number (the `{self.node_counter}` part of
the synthetic fallback label), with fuel for the division recursion. -/
def natDecimalGo : Nat → Nat → List Char
  | 0, _ => []
  | fuel + 1, n =>
    if n < 10 then [Char.ofNat (48 + n)]
    else natDecimalGo fuel (n / 10) ++ [Char.ofNat (48 + n % 10)]

/-- Decimal rendering of a natural number. -/
def natDecimal (n : Nat) : List Char := natDecimalGo (n + 1) n

/-- The cleaning pipeline of `clean_node_label` before the empty-label
fallback and the truncation: escape removal and strip, the three path-prefix
substitutions, extension removal, separator normalisation, invalid-character
removal, underscore collapsing, and the final underscore strip. -/
def cleanCore (cs : List Char) : List Char :=
  let s1 := stripWs (replAll [Char.ofNat 10] (sl (" ")) (replAll bslashL (sl (" ")) cs))
  let s2 := subDel p1At s1
  let s3 := subDel p2At s2
  let s4 := p3Sub s3
  let s5 := extDrop s4
  let s6 := replAll (sl ("::")) (sl ("_")) s5
  let s7 := replAll (sl (".")) (sl ("_")) s6
  let s8 := replAll (sl ("->")) (sl ("_")) s7
  let s9 := remBad s8
  let s10 := collapseUnd s9
  stripUnders s10

/-- The label right before the length truncation: the cleaned label, or the
synthetic `Node{counter}` fallback when cleaning produced the empty string. -/
def cleanPreTrunc (counter : Nat) (cs : List Char) : List Char :=
  let c := cleanCore cs
  if c = [] then sl ("Node") ++ natDecimal counter else c

/-- Embedding of `clean_node_label(label)`: empty input returns the synthetic
label immediately; otherwise the cleaned (or fallback) label is truncated to
its first 22 characters plus an ellipsis when longer than 25 characters. -/
def cleanNodeLabel (counter : Nat) (cs : List Char) : List Char :=
  if cs = [] then sl ("Node") ++ natDecimal counter
  else if 25 < (cleanPreTrunc counter cs).length then
    (cleanPreTrunc counter cs).take 22 ++ sl ("...")
  else cleanPreTrunc counter cs

/-! ## Ingestion state and per-node processing
(process_single_dot_file, DoxygenToDrawio.py lines 1209-1339) -/

/-- Lookup in an insertion-ordered association list (a Python dict). -/
def alGet {α : Type} (k : List Char) (m : List (List Char × α)) : Option α :=
  ((m.find? (fun p => p.1 = k)).map (fun p => p.2))

/-- Update in an insertion-ordered association list: replace the value of an
existing key in place, or append a new binding, exactly as a Python dict
assignment behaves with respect to iteration order. -/
def alSet {α : Type} (k : List Char) (v : α) : List (List Char × α) → List (List Char × α)
  | [] => [(k, v)]
  | (k2, v2) :: rest => if k2 = k then (k, v) :: rest else (k2, v2) :: alSet k v rest

/-- The converter's accumulated ingestion state (the relevant instance
attributes of `DoxygenToDrawioConverter`), plus the per-file set of already
processed node keys. -/
structure IngestState where
  labelToSimple : List (List Char × List Char)
  simpleToLabel : List (List Char × List Char)
  allEdges : List (List Char × List Char)
  nodeCounter : Nat
  origToSimple : List (List Char × List Char)
  fileSources : List (List Char × List Char)
  processedNodes : List (List Char)
deriving DecidableEq

/-- The empty initial state of the converter. -/
def initState : IngestState := ⟨[], [], [], 1, [], [], []⟩

/-- The reserved label names that cause a node to be skipped. -/
def reservedNames : List (List Char) := [sl ("node"), sl ("graph"), sl ("cluster")]

/-- The simple synthetic node id `node-{counter}`. -/
def simpleIdOf (n : Nat) : List Char := sl ("node-") ++ natDecimal n

/-- Embedding of `find_similar_node`: exact label match in `label_to_simple`
first, otherwise the first already-minted label that `are_labels_similar`
accepts (iteration in insertion order). -/
def findSimilarNode (labelToSimple : List (List Char × List Char)) (cl : List Char) :
    Option (List Char) :=
  match alGet cl labelToSimple with
  | some i => some i
  | none => ((labelToSimple.find? (fun p => areLabelsSimilar cl p.1)).map (fun p => p.2))

/-- The observable outcome of processing one raw node declaration. -/
inductive NodeOutcome where
  | skippedSeen : NodeOutcome
  | droppedReserved : NodeOutcome
  | merged : List Char → NodeOutcome
  | minted : List Char → NodeOutcome
deriving DecidableEq

/-- Embedding of the per-node body of `process_single_dot_file` (lines
1262-1294): skip node keys already processed in this file, clean the label,
skip empty or reserved cleaned labels, merge into a similar existing node or
mint a new one, and record the scoped and unscoped alias mappings. -/
def ingestNode (fb origId rawLabel : List Char) (st : IngestState) :
    IngestState × NodeOutcome :=
  let nodeKey := fb ++ sl ("::") ++ origId
  if nodeKey ∈ st.processedNodes then (st, NodeOutcome.skippedSeen)
  else
    let st1 := { st with processedNodes := st.processedNodes ++ [nodeKey] }
    let cl := cleanNodeLabel st1.nodeCounter rawLabel
    if cl = [] ∨ lowerStr cl ∈ reservedNames then (st1, NodeOutcome.droppedReserved)
    else
      match findSimilarNode st1.labelToSimple cl with
      | some simpleId =>
        let st2 := { st1 with
          origToSimple := alSet origId simpleId (alSet nodeKey simpleId st1.origToSimple) }
        (st2, NodeOutcome.merged simpleId)
      | none =>
        let simpleId := simpleIdOf st1.nodeCounter
        let st2 := { st1 with
          labelToSimple := alSet cl simpleId st1.labelToSimple,
          simpleToLabel := alSet simpleId cl st1.simpleToLabel,
          fileSources := alSet simpleId fb st1.fileSources,
          nodeCounter := st1.nodeCounter + 1,
          origToSimple := alSet origId simpleId (alSet nodeKey simpleId st1.origToSimple) }
        (st2, NodeOutcome.minted simpleId)

/-! ## Edge extraction and deduplication
(process_single_dot_file lines 1296-1335, final_deduplication_pass lines 1366-1386) -/

/-- Resolve one raw edge endpoint: the file-scoped alias is tried first, then
the unscoped one. -/
def resolveEndpoint (origToSimple : List (List Char × List Char)) (fb raw : List Char) :
    Option (List Char) :=
  match alGet (fb ++ sl ("::") ++ raw) origToSimple with
  | some s => some s
  | none => alGet raw origToSimple

/-- Embedding of the edge-append body: an edge is added only when both
endpoints resolve, they differ, and the pair is new both in this file's
`processed_edges` set and in the global `all_edges` list. The accumulator is
`(all_edges, processed_edges)`. -/
def addEdge (origToSimple : List (List Char × List Char)) (fb : List Char)
    (acc : List (List Char × List Char) × List (List Char × List Char))
    (raw : List Char × List Char) :
    List (List Char × List Char) × List (List Char × List Char) :=
  match resolveEndpoint origToSimple fb raw.1, resolveEndpoint origToSimple fb raw.2 with
  | some s, some t =>
    if s ≠ t then
      if (s, t) ∉ acc.2 ∧ (s, t) ∉ acc.1 then (acc.1 ++ [(s, t)], acc.2 ++ [(s, t)])
      else acc
    else acc
  | _, _ => acc

/-- Process all raw edge matches of one file against the global edge list. -/
def processFileEdges (origToSimple : List (List Char × List Char)) (fb : List Char)
    (rawPairs : List (List Char × List Char))
    (allEdges : List (List Char × List Char)) : List (List Char × List Char) :=
  (rawPairs.foldl (addEdge origToSimple fb) (allEdges, [])).1

/-- Embedding of the edge part of `final_deduplication_pass`: keep the first
occurrence of every edge. -/
def dedupEdges (edges : List (List Char × List Char)) : List (List Char × List Char) :=
  (edges.foldl (fun acc e => if e ∈ acc then acc else acc ++ [e]) [])

/-- One ingested document, for the edge pipeline: its basename, the alias
table in effect when its edges are scanned, and the raw endpoint pairs its
edge statements produced (in scan order, across both edge patterns). -/
structure FileEdgeData where
  basename : List Char
  aliases : List (List Char × List Char)
  rawPairs : List (List Char × List Char)

/-- The final edge list after ingesting every document and running the final
deduplication pass. -/
def ingestEdgesRun (files : List FileEdgeData) : List (List Char × List Char) :=
  dedupEdges
    (files.foldl (fun acc f => processFileEdges f.aliases f.basename f.rawPairs acc) [])

/-- Python `any(kw in label for kw in kws)`. -/
def anyKw (kws : List (List Char)) (label : List Char) : Bool :=
  kws.any (fun k => inStr k label)

/-! ## The combined graph and its adjacency views
(calculate_hierarchical_layout, DoxygenToDrawio.py lines 1407-1429) -/

/-- The combined graph handed to layout: `simple_to_label` as an
insertion-ordered association list, and `all_edges`. -/
structure Graph where
  nodes : List (List Char × List Char)
  edges : List (List Char × List Char)

/-- The node ids, in insertion order. -/
def nodeKeys (g : Graph) : List (List Char) := g.nodes.map (fun p => p.1)

/-- The label of a node id (total, defaulting to the empty label). -/
def labelOf (g : Graph) (n : List Char) : List Char :=
  match alGet n g.nodes with
  | some l => l
  | none => []

/-- The edges whose two endpoints are known node ids (the
`if source in nodes and target in nodes` guard of the adjacency build). -/
def validEdges (g : Graph) : List (List Char × List Char) :=
  g.edges.filter (fun e => decide (e.1 ∈ nodeKeys g) && decide (e.2 ∈ nodeKeys g))

/-- `outgoing[n]`: targets of valid edges out of `n`, in edge order. -/
def outgoing (g : Graph) (n : List Char) : List (List Char) :=
  ((validEdges g).filter (fun e => decide (e.1 = n))).map (fun e => e.2)

/-- `incoming[n]`: sources of valid edges into `n`, in edge order. -/
def incoming (g : Graph) (n : List Char) : List (List Char) :=
  ((validEdges g).filter (fun e => decide (e.2 = n))).map (fun e => e.1)

/-- The isolated node ids (no incoming and no outgoing edges), in node order. -/
def isolatedNodes (g : Graph) : List (List Char) :=
  ((g.nodes.filter (fun p => incoming g p.1 = [] ∧ outgoing g p.1 = [])).map (fun p => p.1))

/-- The connected nodes (id and label), in node order. -/
def connectedNodes (g : Graph) : List (List Char × List Char) :=
  g.nodes.filter (fun p => ¬ (incoming g p.1 = [] ∧ outgoing g p.1 = []))

/-- The connected node ids, in node order. -/
def connKeys (g : Graph) : List (List Char) := (connectedNodes g).map (fun p => p.1)

/-! ## Stable insertion sorts (Python `sorted` / `list.sort` are stable) -/

/-- Insert `x` after every element `y` with `lt y x = false`; with a strict
comparison this realises one step of a stable descending sort. -/
def insertDescBy {α : Type} (lt : α → α → Bool) (x : α) : List α → List α
  | [] => [x]
  | y :: ys => if lt y x then x :: y :: ys else y :: insertDescBy lt x ys

/-- Stable descending sort by the strict comparison `lt` (Python
`sorted(..., reverse=True)`). -/
def sortDescBy {α : Type} (lt : α → α → Bool) (l : List α) : List α :=
  l.foldl (fun acc x => insertDescBy lt x acc) []

/-- Insert `x` before the first element `y` with `lt x y = true`; one step of
a stable ascending sort. -/
def insertAscBy {α : Type} (lt : α → α → Bool) (x : α) : List α → List α
  | [] => [x]
  | y :: ys => if lt x y then x :: y :: ys else y :: insertAscBy lt x ys

/-- Stable ascending sort by the strict comparison `lt` (Python `sorted`). -/
def sortAscBy {α : Type} (lt : α → α → Bool) (l : List α) : List α :=
  l.foldl (fun acc x => insertAscBy lt x acc) []

/-- Strict lexicographic comparison on integer triples (Python tuple `<`). -/
def lex3Lt (a b : ℤ × ℤ × ℤ) : Bool :=
  decide (a.1 < b.1 ∨ (a.1 = b.1 ∧ (a.2.1 < b.2.1 ∨ (a.2.1 = b.2.1 ∧ a.2.2 < b.2.2))))

/-- Python's code-point comparison of strings. -/
def charListLt : List Char → List Char → Bool
  | _, [] => false
  | [], _ :: _ => true
  | x :: xs, y :: ys => if x < y then true else if y < x then false else charListLt xs ys

/-! ## get_execution_priority (lines 160-199) -/

/-- Embedding of `get_execution_priority(label, outgoing_count, incoming_count)`:
the keyword-tier base score plus capped connectivity bonuses. -/
def getExecutionPriority (label : List Char) (outgoingCount incomingCount : ℤ) : ℤ :=
  let ll := lowerStr label
  let base : ℤ :=
    if anyKw [sl ("main"), sl ("__main__"), sl ("main()"), sl ("int main")] ll then 100
    else if anyKw [sl ("__init__"), sl ("constructor")] ll then 90
    else if anyKw [sl ("setup"), sl ("initialize"), sl ("init"), sl ("config")] ll then 80
    else if anyKw [sl ("start"), sl ("begin"), sl ("run"), sl ("execute")] ll then 70
    else if anyKw [sl ("process"), sl ("handle"), sl ("update"), sl ("loop")] ll then 60
    else if anyKw [sl ("read"), sl ("input"), sl ("receive"), sl ("get")] ll then 50
    else if anyKw [sl ("write"), sl ("output"), sl ("send"), sl ("transmit")] ll then 45
    else if anyKw [sl ("calculate"), sl ("compute"), sl ("transform")] ll then 40
    else if anyKw [sl ("validate"), sl ("check"), sl ("verify")] ll then 35
    else if anyKw [sl ("save"), sl ("store"), sl ("persist")] ll then 30
    else if anyKw [sl ("cleanup"), sl ("close"), sl ("finalize"), sl ("destroy")] ll then 20
    else if anyKw [sl ("error"), sl ("fail"), sl ("exception"), sl ("abort")] ll then 15
    else if anyKw [sl ("test"), sl ("debug"), sl ("trace")] ll then 10
    else if anyKw [sl ("helper"), sl ("utility"), sl ("util")] ll then 5
    else 0
  base + min 20 (outgoingCount * 2) + min 10 incomingCount

/-! ## Root selection (lines 1431-1486) -/

/-- The natural roots: connected nodes with no incoming edges. -/
def naturalRoots (g : Graph) : List (List Char) :=
  (((connectedNodes g).filter (fun p => incoming g p.1 = [])).map (fun p => p.1))

/-- The inline entry-point score of the synthetic-root search (lines
1437-1474): keyword-tier priority plus a connectivity boost capped at 5. -/
def rootScore (label : List Char) (outCount : ℤ) : ℤ :=
  let ll := lowerStr label
  let base : ℤ :=
    if anyKw [sl ("main"), sl ("__main__"), sl ("main()"), sl ("int main")] ll then 20
    else if anyKw [sl ("__init__"), sl ("constructor"), sl ("setup"), sl ("start"),
      sl ("begin")] ll then 15
    else if anyKw [sl ("init"), sl ("config"), sl ("configure"), sl ("initialize")] ll then 12
    else if anyKw [sl ("run"), sl ("execute"), sl ("process"), sl ("loop"),
      sl ("update")] ll then 10
    else if anyKw [sl ("read"), sl ("write"), sl ("send"), sl ("receive"), sl ("input"),
      sl ("output")] ll then 8
    else if anyKw [sl ("timer"), sl ("delay"), sl ("wait"), sl ("sleep"),
      sl ("schedule")] ll then 6
    else if anyKw [sl ("handle"), sl ("callback"), sl ("event"), sl ("interrupt"),
      sl ("trigger")] ll then 5
    else if anyKw [sl ("error"), sl ("fail"), sl ("exception"), sl ("abort"),
      sl ("catch")] ll then 3
    else if anyKw [sl ("test"), sl ("unittest"), sl ("pytest"), sl ("assert"),
      sl ("check")] ll then 2
    else 1
  base + min 5 outCount

/-- The scored entry candidates, in connected-node order. -/
def candsOf (g : Graph) : List (List Char × ℤ) :=
  (connectedNodes g).map (fun p => (p.1, rootScore p.2 ((outgoing g p.1).length : ℤ)))

/-- The sort key of an entry candidate: (priority, out-degree, −in-degree). -/
def candKey (g : Graph) (c : List Char × ℤ) : ℤ × ℤ × ℤ :=
  (c.2, ((outgoing g c.1).length : ℤ), -((incoming g c.1).length : ℤ))

/-- Embedding of the root-finding logic: natural roots if any; otherwise the
top `min(5, max(1, n // 10))` scored candidates sorted descending by
(priority, out-degree, −in-degree); otherwise (no connected nodes at all) the
top three nodes by out-degree. -/
def rootsOf (g : Graph) : List (List Char) :=
  let roots := naturalRoots g
  if roots ≠ [] then roots
  else
    let cands := candsOf g
    if cands ≠ [] then
      let sorted := sortDescBy (fun a b => lex3Lt (candKey g a) (candKey g b)) cands
      let maxRoots := min 5 (max 1 (cands.length / 10))
      ((sorted.take maxRoots).map (fun c => c.1))
    else
      (((sortDescBy (fun a b =>
          decide (((outgoing g a.1).length : ℤ) < ((outgoing g b.1).length : ℤ)))
          (connectedNodes g)).take 3).map (fun p => p.1))

/-! ## Breadth-first level assignment (lines 1488-1513) -/

/-- `levels.get(node, d)`. -/
def levGet (levels : List (List Char × ℤ)) (n : List Char) (d : ℤ) : ℤ :=
  match alGet n levels with
  | some v => v
  | none => d

/-- The BFS working state: the FIFO queue of `(node, level)` entries, the
visited set (as an ordered list), and the level dict. -/
structure BfsState where
  queue : List (List Char × ℤ)
  visited : List (List Char)
  levels : List (List Char × ℤ)

/-- One fuel-bounded run of the BFS loop: pop the front entry, skip visited
nodes, otherwise record the level (raised to any previously recorded level —
dead in practice, as levels and visited are updated together), and enqueue
the unvisited connected children sorted by descending execution priority. -/
def bfsRun (g : Graph) : Nat → BfsState → BfsState
  | 0, st => st
  | _ + 1, ⟨[], visited, levels⟩ => ⟨[], visited, levels⟩
  | fuel + 1, ⟨(node, level) :: qrest, visited, levels⟩ =>
    if node ∈ visited then bfsRun g fuel ⟨qrest, visited, levels⟩
    else
      let visited2 := visited ++ [node]
      let level2 := match alGet node levels with
        | some v => max level v
        | none => level
      let levels2 := alSet node level2 levels
      let children := sortDescBy (fun a b =>
        decide (getExecutionPriority (labelOf g a) ((outgoing g a).length : ℤ)
            ((incoming g a).length : ℤ) <
          getExecutionPriority (labelOf g b) ((outgoing g b).length : ℤ)
            ((incoming g b).length : ℤ))) (outgoing g node)
      let enq := ((children.filter (fun c =>
        decide (c ∉ visited2) && decide (c ∈ connKeys g))).map (fun c => (c, level2 + 1)))
      bfsRun g fuel ⟨qrest ++ enq, visited2, levels2⟩

/-- Fuel that drains the queue: at most one initial entry per root plus one
enqueue per (visited node, out-edge) pair. -/
def bfsFuel (g : Graph) : Nat := (g.nodes.length + 1) * (g.edges.length + 2)

/-- The BFS level assignment: run from all roots at level 0. -/
def bfsLevels (g : Graph) : List (List Char × ℤ) :=
  (bfsRun g (bfsFuel g)
    { queue := ((rootsOf g).map (fun r => (r, 0))), visited := [], levels := [] }).levels

/-! ## refine_levels_by_function_type (lines 201-256) -/

/-- The function groups of `refine_levels_by_function_type`. -/
inductive FuncGroup where
  | entry : FuncGroup
  | core : FuncGroup
  | ioGrp : FuncGroup
  | processing : FuncGroup
  | utility : FuncGroup
  | errGrp : FuncGroup
  | cleanupGrp : FuncGroup
deriving DecidableEq

/-- The group of a label: first matching keyword family, in source order. -/
def funcGroup (label : List Char) : FuncGroup :=
  let ll := lowerStr label
  if anyKw [sl ("main"), sl ("__main__"), sl ("__init__"), sl ("constructor"), sl ("setup"),
      sl ("initialize")] ll then FuncGroup.entry
  else if anyKw [sl ("error"), sl ("fail"), sl ("exception"), sl ("abort"),
      sl ("catch")] ll then FuncGroup.errGrp
  else if anyKw [sl ("cleanup"), sl ("close"), sl ("finalize"), sl ("destroy"),
      sl ("delete")] ll then FuncGroup.cleanupGrp
  else if anyKw [sl ("read"), sl ("write"), sl ("input"), sl ("output"), sl ("send"),
      sl ("receive")] ll then FuncGroup.ioGrp
  else if anyKw [sl ("process"), sl ("calculate"), sl ("compute"), sl ("transform"),
      sl ("parse")] ll then FuncGroup.processing
  else if anyKw [sl ("helper"), sl ("utility"), sl ("util"), sl ("get"),
      sl ("set")] ll then FuncGroup.utility
  else FuncGroup.core

/-- The connected nodes of one group, in connected-node order. -/
def groupNodes (g : Graph) (grp : FuncGroup) : List (List Char) :=
  (((connectedNodes g).filter (fun p => funcGroup p.2 = grp)).map (fun p => p.1))

/-- Python `min(list, default=0)` / `max(list)` as left folds. -/
def listMinD (l : List ℤ) (d : ℤ) : ℤ :=
  match l with
  | [] => d
  | x :: rest => rest.foldl min x

/-- Maximum of a list with a default for the empty case (the source only
takes this maximum over nonempty lists). -/
def listMaxD (l : List ℤ) (d : ℤ) : ℤ :=
  match l with
  | [] => d
  | x :: rest => rest.foldl max x

/-- The error-group rebalancing pass: pull an error node down to
`max(2, min_entry_level + 2)` when it sits more than one rank below and all
its direct predecessors are strictly above the target. -/
def refineErr (g : Graph) (levels0 : List (List Char × ℤ)) : List (List Char × ℤ) :=
  let entry := groupNodes g FuncGroup.entry
  let errNodes := groupNodes g FuncGroup.errGrp
  let minEntry := listMinD (entry.map (fun n => levGet levels0 n 0)) 0
  if errNodes ≠ [] then
    let errTarget := max 2 (minEntry + 2)
    errNodes.foldl (fun lv node =>
      if errTarget + 1 < levGet lv node 0 then
        if (incoming g node).all (fun p => decide (levGet lv p 0 < errTarget)) then
          alSet node errTarget lv
        else lv
      else lv) levels0
  else levels0

/-- The cleanup target rank: one less than the maximum assigned rank over the
connected nodes (`max(...) - 1`). -/
def cleanupBaseOf (g : Graph) (lv : List (List Char × ℤ)) : ℤ :=
  listMaxD ((connKeys g).map (fun n => levGet lv n 0)) 0 - 1

/-- One step of the cleanup rebalancing loop: raise the node to the cleanup
base rank when it is below it and all its direct predecessors are strictly
below the target at this moment. -/
def cleanupStep (g : Graph) (base : ℤ) (lv : List (List Char × ℤ)) (node : List Char) :
    List (List Char × ℤ) :=
  if levGet lv node 0 < base then
    if (incoming g node).all (fun p => decide (levGet lv p 0 < base)) then
      alSet node base lv
    else lv
  else lv

/-- The cleanup-group rebalancing pass. -/
def refineCleanup (g : Graph) (lv1 : List (List Char × ℤ)) : List (List Char × ℤ) :=
  let cleanupNodes := groupNodes g FuncGroup.cleanupGrp
  if cleanupNodes ≠ [] then
    cleanupNodes.foldl (cleanupStep g (cleanupBaseOf g lv1)) lv1
  else lv1

/-- Embedding of `refine_levels_by_function_type`: the error pass then the
cleanup pass (the cleanup base is computed after the error adjustments). -/
def refineLevels (g : Graph) (levels0 : List (List Char × ℤ)) : List (List Char × ℤ) :=
  refineCleanup g (refineErr g levels0)

/-! ## Fallback rank assignment (lines 1521-1529) -/

/-- Any connected node still unranked gets `1 + max(parent ranks)`, or 0 with
no incoming edges. -/
def fallbackLevels (g : Graph) (levels0 : List (List Char × ℤ)) : List (List Char × ℤ) :=
  (connKeys g).foldl (fun lv node =>
    if (alGet node lv).isSome then lv
    else if incoming g node ≠ [] then
      alSet node (listMaxD ((incoming g node).map (fun p => levGet lv p 0)) 0 + 1) lv
    else alSet node 0 lv) levels0

/-- The complete rank assignment of lines 1489-1529: BFS, refinement by
function type, then the fallback pass. -/
def levelsAfterFallback (g : Graph) : List (List Char × ℤ) :=
  fallbackLevels g (refineLevels g (bfsLevels g))

/-! ## Crowding resolution (lines 1531-1559) -/

/-- Append a node to its level's group, creating the group at the end on a
new level (Python dict-of-lists in insertion order). -/
def groupAdd (acc : List (ℚ × List (List Char))) (l : ℚ) (n : List Char) :
    List (ℚ × List (List Char)) :=
  match acc with
  | [] => [(l, [n])]
  | (k, ns) :: rest => if k = l then (k, ns ++ [n]) :: rest else (k, ns) :: groupAdd rest l n

/-- `level_groups`: nodes grouped by level, by iterating the level dict. -/
def levelGroups (levels : List (List Char × ℚ)) : List (ℚ × List (List Char)) :=
  levels.foldl (fun acc p => groupAdd acc p.2 p.1) []

/-- The group of one level (empty when the level is unknown). -/
def groupGet (gr : List (ℚ × List (List Char))) (l : ℚ) : List (List Char) :=
  match gr.find? (fun p => p.1 = l) with
  | some p => p.2
  | none => []

/-- Replace the group of an existing level in place, or append a new one
(Python dict assignment). -/
def groupSet (l : ℚ) (v : List (List Char)) :
    List (ℚ × List (List Char)) → List (ℚ × List (List Char))
  | [] => [(l, v)]
  | (k, ns) :: rest => if k = l then (l, v) :: rest else (k, ns) :: groupSet l v rest

/-- The rank levels as rationals (they are integers until crowding splits
introduce the `level + 0.5` sub-ranks). -/
def levelsQ (g : Graph) : List (List Char × ℚ) :=
  (levelsAfterFallback g).map (fun p => (p.1, (p.2 : ℚ)))

/-- A node is "structurally important" for crowding when its out-degree
exceeds 1 or its label contains one of the anchor keywords. -/
def crowdImportant (g : Graph) (n : List Char) : Bool :=
  decide (1 < (outgoing g n).length) ||
    anyKw [sl ("main"), sl ("init"), sl ("setup"), sl ("create"), sl ("start")]
      (lowerStr (labelOf g n))

/-- The "structurally important" members of one level's group. -/
def crowdImportantOf (g : Graph) (gr : List (ℚ × List (List Char))) (level : ℚ) :
    List (List Char) :=
  (groupGet gr level).filter (fun n => crowdImportant g n)

/-- The remaining (regular) members of one level's group. -/
def crowdRegularOf (g : Graph) (gr : List (ℚ × List (List Char))) (level : ℚ) :
    List (List Char) :=
  (groupGet gr level).filter (fun n => decide (n ∉ crowdImportantOf g gr level))

/-- One crowding step for one originally-present level: if its group exceeds
8 nodes, keep the important nodes there and move the rest to a fresh
`level + 0.5` sub-level. -/
def crowdStep (g : Graph)
    (st : List (List Char × ℚ) × List (ℚ × List (List Char))) (level : ℚ) :
    List (List Char × ℚ) × List (ℚ × List (List Char)) :=
  if 8 < (groupGet st.2 level).length then
    if crowdRegularOf g st.2 level ≠ [] then
      ((crowdRegularOf g st.2 level).foldl (fun l n => alSet n (level + 1/2) l) st.1,
       groupSet (level + 1/2) (crowdRegularOf g st.2 level)
         (groupSet level (crowdImportantOf g st.2 level) st.2))
    else (st.1, groupSet level (crowdImportantOf g st.2 level) st.2)
  else st

/-- Embedding of the crowding redistribution: iterate the sorted snapshot of
the original level keys, splitting each overcrowded level once. -/
def crowdRes (g : Graph) : List (List Char × ℚ) × List (ℚ × List (List Char)) :=
  let lv0 := levelsQ g
  let gr0 := levelGroups lv0
  let keys := sortAscBy (fun a b => decide (a < b)) (gr0.map (fun p => p.1))
  keys.foldl (crowdStep g) (lv0, gr0)

/-- The final rank assignment (after crowding) as a rational-valued map. -/
def levelsLayout (g : Graph) : List (List Char × ℚ) := (crowdRes g).1

/-- The final level groups (after crowding). -/
def groupsLayout (g : Graph) : List (ℚ × List (List Char)) := (crowdRes g).2

/-! ## Node sizing (get_node_font_size lines 1755-1770, calculate_node_size
lines 1707-1753) -/

/-- Embedding of `get_node_font_size`. -/
def getNodeFontSize (label : List Char) (isolated : Bool) : Nat :=
  let ll := lowerStr label
  if isolated then 10
  else if anyKw [sl ("main"), sl ("__main__"), sl ("main()"), sl ("int main")] ll then 12
  else if anyKw [sl ("__init__"), sl ("constructor"), sl ("destructor"), sl ("~"),
      sl ("setup"), sl ("start"), sl ("begin"), sl ("run")] ll then 11
  else if anyKw [sl ("error"), sl ("fail"), sl ("exception"), sl ("abort"), sl ("throw"),
      sl ("catch"), sl ("except")] ll then 11
  else if anyKw [sl ("test"), sl ("unittest"), sl ("pytest"), sl ("assert"),
      sl ("check")] ll then 10
  else 11

/-- The per-font character-width table (`char_width_map.get(font_size, 6.5)`),
in exact rationals (the Python floats are half-integers). -/
def charWidthOf (fontSize : Nat) : ℚ :=
  if fontSize = 9 then 11/2
  else if fontSize = 10 then 6
  else if fontSize = 11 then 13/2
  else if fontSize = 12 then 7
  else if fontSize = 13 then 15/2
  else if fontSize = 14 then 8
  else if fontSize = 16 then 9
  else 13/2

/-- Python `int()` truncation toward zero of an exact rational. -/
def intTrunc (q : ℚ) : ℤ := q.num.tdiv (q.den : ℤ)

/-- Embedding of `calculate_node_size`: width from the simulated text width
clamped to [100, 300], height from the line count when wrapping would occur,
and a small uniform reduction for isolated nodes. -/
def calculateNodeSize (label : List Char) (fontSize : Nat) (isolated : Bool) : ℤ × ℤ :=
  let charWidth := charWidthOf fontSize
  let textWidth : ℚ := (label.length : ℚ) * charWidth
  let calcW : ℚ := max 100 (min 300 (textWidth + 20))
  let lineH : ℚ := (fontSize : ℚ) + 4
  let calcH : ℚ :=
    if textWidth > 300 - 20 then
      let lines : ℚ := max 1 ((intTrunc (textWidth / (300 - 20)) : ℚ) + 1)
      max 50 (min 100 (lines * lineH + 20))
    else max 50 (lineH + 20)
  if isolated then
    (intTrunc (max (100 - 10) (calcW - 10)), intTrunc (max (50 - 5) (calcH - 5)))
  else (intTrunc calcW, intTrunc calcH)

/-- Sizes of every node (lines 1566-1576), in node order. -/
def nodeSizes (g : Graph) : List (List Char × ℤ × ℤ) :=
  g.nodes.map (fun p =>
    (p.1, calculateNodeSize p.2 (getNodeFontSize p.2 (decide (p.1 ∈ isolatedNodes g)))
      (decide (p.1 ∈ isolatedNodes g))))

/-- The running maximum node width (`max_node_width`, starting at 0). -/
def maxNodeW (g : Graph) : ℤ := (nodeSizes g).foldl (fun m p => max m p.2.1) 0

/-- The running maximum node height. -/
def maxNodeH (g : Graph) : ℤ := (nodeSizes g).foldl (fun m p => max m p.2.2) 0

/-! ## Spacing tiers and canvas widths (lines 1578-1610) -/

/-- `level_spacing` by total node count. -/
def levelSpacingOf (g : Graph) : ℤ :=
  if g.nodes.length ≤ 10 then max 220 (maxNodeH g + 150)
  else if g.nodes.length ≤ 30 then max 250 (maxNodeH g + 180)
  else if g.nodes.length ≤ 60 then max 280 (maxNodeH g + 200)
  else max 320 (maxNodeH g + 220)

/-- `base_node_spacing` by total node count. -/
def baseSpacingOf (g : Graph) : ℤ :=
  if g.nodes.length ≤ 10 then max 280 (maxNodeW g + 120)
  else if g.nodes.length ≤ 30 then max 320 (maxNodeW g + 140)
  else if g.nodes.length ≤ 60 then max 360 (maxNodeW g + 160)
  else max 400 (maxNodeW g + 180)

/-- `max_nodes_in_level` over the final (post-crowding) level groups. -/
def maxNodesInLevel (g : Graph) : ℤ :=
  if groupsLayout g = [] then 1
  else listMaxD ((groupsLayout g).map (fun p => (p.2.length : ℤ))) 0

/-- `main_graph_width` by total node count. -/
def mainGraphWidth (g : Graph) : ℤ :=
  if g.nodes.length ≤ 20 then max 1200 (maxNodesInLevel g * baseSpacingOf g + 600)
  else if g.nodes.length ≤ 50 then max 1600 (maxNodesInLevel g * baseSpacingOf g + 800)
  else max 2200 (maxNodesInLevel g * baseSpacingOf g + 1000)

/-- The side area reserved for isolated nodes. -/
def isolatedAreaWidth (g : Graph) : ℤ :=
  if isolatedNodes g ≠ [] then
    if (isolatedNodes g).length ≤ 5 then 400
    else if (isolatedNodes g).length ≤ 15 then 550
    else 700
  else 0

/-- The full canvas width. -/
def canvasWidthOf (g : Graph) : ℤ := mainGraphWidth g + isolatedAreaWidth g

/-! ## Within-level ordering (get_function_category_order lines 258-294) -/

/-- Embedding of `get_function_category_order`. -/
def getFunctionCategoryOrder (label : List Char) : ℤ :=
  let ll := lowerStr label
  if anyKw [sl ("main"), sl ("__main__"), sl ("main()")] ll then 1
  else if anyKw [sl ("__init__"), sl ("constructor"), sl ("setup")] ll then 2
  else if anyKw [sl ("config"), sl ("configure"), sl ("initialize")] ll then 3
  else if anyKw [sl ("start"), sl ("begin"), sl ("run"), sl ("execute")] ll then 4
  else if anyKw [sl ("read"), sl ("input"), sl ("receive"), sl ("get")] ll then 5
  else if anyKw [sl ("process"), sl ("handle"), sl ("calculate"), sl ("compute")] ll then 6
  else if anyKw [sl ("validate"), sl ("check"), sl ("verify")] ll then 7
  else if anyKw [sl ("write"), sl ("output"), sl ("send"), sl ("transmit")] ll then 8
  else if anyKw [sl ("update"), sl ("modify"), sl ("change")] ll then 9
  else if anyKw [sl ("save"), sl ("store"), sl ("persist")] ll then 10
  else if anyKw [sl ("timer"), sl ("delay"), sl ("wait"), sl ("sleep")] ll then 11
  else if anyKw [sl ("cleanup"), sl ("close"), sl ("finalize")] ll then 12
  else if anyKw [sl ("error"), sl ("fail"), sl ("exception")] ll then 13
  else if anyKw [sl ("test"), sl ("debug"), sl ("trace")] ll then 14
  else if anyKw [sl ("helper"), sl ("utility"), sl ("util")] ll then 15
  else 6

/-- Ascending lexicographic comparison on the five-part within-level sort key. -/
def lt5 (a b : ℤ × ℤ × ℤ × ℤ × List Char) : Bool :=
  if a.1 < b.1 then true else if b.1 < a.1 then false
  else if a.2.1 < b.2.1 then true else if b.2.1 < a.2.1 then false
  else if a.2.2.1 < b.2.2.1 then true else if b.2.2.1 < a.2.2.1 then false
  else if a.2.2.2.1 < b.2.2.2.1 then true else if b.2.2.2.1 < a.2.2.2.1 then false
  else charListLt a.2.2.2.2 b.2.2.2.2

/-- The within-level sort key (lines 1632-1638): negated execution priority,
negated out/in degree, category order, lowercased label. -/
def levelNodeKey (g : Graph) (n : List Char) : ℤ × ℤ × ℤ × ℤ × List Char :=
  (-(getExecutionPriority (labelOf g n) ((outgoing g n).length : ℤ)
      ((incoming g n).length : ℤ)),
   -((outgoing g n).length : ℤ), -((incoming g n).length : ℤ),
   getFunctionCategoryOrder (labelOf g n), lowerStr (labelOf g n))

/-! ## Positions (lines 1612-1703) -/

/-- Placement of one level's nodes (lines 1614-1643): tiered spacing,
centered start, within-level key sort, then left-to-right slots. -/
def placeLevel (g : Graph) (gr : List (ℚ × List (List Char))) (level : ℚ) :
    List (List Char × ℤ × ℚ) :=
  let levelNodes := groupGet gr level
  let n : ℤ := (levelNodes.length : ℤ)
  let w := mainGraphWidth g
  let spacing : ℤ :=
    if 12 < n then max 280 (w.fdiv (n + 1))
    else if 8 < n then max 320 (w.fdiv (n + 1))
    else if 4 < n then max (baseSpacingOf g + 60) (w.fdiv (n + 1))
    else baseSpacingOf g + 80
  let totalW := (n - 1) * spacing
  let startX := max 200 ((w - totalW).fdiv 2)
  let sortedNodes := sortAscBy (fun a b => lt5 (levelNodeKey g a) (levelNodeKey g b)) levelNodes
  (sortedNodes.enum.map (fun p =>
    (p.2, startX + (p.1 : ℤ) * spacing, (200 : ℚ) + level * ((levelSpacingOf g : ℤ) : ℚ))))

/-- Positions of all connected nodes: levels in ascending order. -/
def connectedPositions (g : Graph) : List (List Char × ℤ × ℚ) :=
  let gr := groupsLayout g
  let sortedLevels := sortAscBy (fun a b => decide (a < b)) (gr.map (fun p => p.1))
  sortedLevels.foldl (fun acc level => acc ++ placeLevel g gr level) []

/-- The ordering key of an isolated node (get_isolated_node_priority,
lines 1663-1694): a priority tier and the lowercased label. -/
def getIsolatedNodePriority (label : List Char) : ℤ × List Char :=
  let ll := lowerStr label
  let tier : ℤ :=
    if anyKw [sl ("main"), sl ("__main__"), sl ("init"), sl ("setup")] ll then 1
    else if anyKw [sl ("config"), sl ("configure"), sl ("initialize")] ll then 2
    else if anyKw [sl ("read"), sl ("input"), sl ("get")] ll then 3
    else if anyKw [sl ("process"), sl ("calculate"), sl ("compute")] ll then 4
    else if anyKw [sl ("write"), sl ("output"), sl ("send")] ll then 5
    else if anyKw [sl ("validate"), sl ("check"), sl ("verify")] ll then 6
    else if anyKw [sl ("timer"), sl ("delay"), sl ("wait")] ll then 7
    else if anyKw [sl ("update"), sl ("modify"), sl ("set")] ll then 8
    else if anyKw [sl ("save"), sl ("store"), sl ("persist")] ll then 9
    else if anyKw [sl ("cleanup"), sl ("close"), sl ("finalize")] ll then 10
    else if anyKw [sl ("test"), sl ("check"), sl ("assert")] ll then 11
    else if anyKw [sl ("error"), sl ("fail"), sl ("exception")] ll then 12
    else if anyKw [sl ("helper"), sl ("utility"), sl ("util")] ll then 13
    else 7
  (tier, ll)

/-- Ascending comparison of isolated-node keys. -/
def ltIso (a b : ℤ × List Char) : Bool :=
  if a.1 < b.1 then true else if b.1 < a.1 then false else charListLt a.2 b.2

/-- Positions of the isolated nodes (lines 1645-1703): a 1-3 column side
region to the right of the main graph width, filled row-major in key order. -/
def isolatedPositions (g : Graph) : List (List Char × ℤ × ℚ) :=
  let iso := isolatedNodes g
  if iso = [] then []
  else
    let cols : ℤ := if iso.length ≤ 6 then 1 else if iso.length ≤ 18 then 2 else 3
    let gap : ℤ := if iso.length ≤ 6 then 150 else if iso.length ≤ 18 then 180 else 200
    let startX := mainGraphWidth g + gap
    let spacingX := maxNodeW g + 60
    let spacingY := maxNodeH g + 50
    let sortedIso := sortAscBy (fun a b =>
      ltIso (getIsolatedNodePriority (labelOf g a)) (getIsolatedNodePriority (labelOf g b))) iso
    (sortedIso.enum.map (fun p =>
      let i : ℤ := (p.1 : ℤ)
      (p.2, startX + (i % cols) * spacingX,
        ((200 : ℚ) + (((i.fdiv cols) * spacingY : ℤ) : ℚ)))))

/-- The complete positions map: connected nodes then isolated nodes. -/
def positionsOf (g : Graph) : List (List Char × ℤ × ℚ) :=
  connectedPositions g ++ isolatedPositions g

/-! ## get_edge_style (DoxygenToDrawio.py lines 296-372) -/

/-- Embedding of `get_edge_style`: flow direction from the y coordinates,
relationship flags from keyword containment on the two labels, and the style
string assembled per branch. Coordinates are rationals (the Python values are
ints and exact half-integer floats). -/
def getEdgeStyle (sourceLabel targetLabel : List Char) (sx sy tx ty : ℚ) : String :=
  let isDownward : Bool := decide (ty > sy)
  let isUpward : Bool := decide (ty < sy)
  let isLateral : Bool := decide (ty = sy)
  let xDistance : ℚ := |tx - sx|
  let isMainEntry : Bool :=
    anyKw [sl ("main"), sl ("__main__"), sl ("init"), sl ("setup")] sourceLabel
  let isErrorHandling : Bool :=
    anyKw [sl ("error"), sl ("fail"), sl ("exception"), sl ("abort")] targetLabel
  let isUtilityCall : Bool :=
    anyKw [sl ("get"), sl ("set"), sl ("property"), sl ("util"), sl ("helper")] targetLabel
  let ioOperation : Bool :=
    anyKw [sl ("read"), sl ("write"), sl ("input"), sl ("output"), sl ("send"),
      sl ("receive")] targetLabel
  let isCleanup : Bool :=
    anyKw [sl ("cleanup"), sl ("close"), sl ("finalize"), sl ("destroy")] targetLabel
  let isTiming : Bool :=
    anyKw [sl ("timer"), sl ("delay"), sl ("wait"), sl ("sleep")] targetLabel
  let baseStyle : String :=
    "edgeStyle=orthogonalEdgeStyle;rounded=1;orthogonalLoop=1;jettySize=auto;html=1;endArrow=classic;shadow=1;labelBackgroundColor=#ffffff;"
  let routingStyle : String :=
    if decide (xDistance > 300) || (isLateral && decide (xDistance > 200)) ||
        (isUpward && decide (xDistance > 150)) then
      "entryX=0.5;entryY=0;exitX=0.5;exitY=1;noEdgeStyle=1;"
    else
      "entryX=0.5;entryY=0;exitX=0.5;exitY=1;"
  if isDownward then
    if isMainEntry then
      baseStyle ++ routingStyle ++ "strokeWidth=4;strokeColor=#1976d2;fontColor=#1976d2;fontStyle=1;opacity=90;"
    else if isErrorHandling then
      baseStyle ++ routingStyle ++ "strokeWidth=2.5;strokeColor=#e53e3e;dashed=1;opacity=85;"
    else if ioOperation then
      baseStyle ++ routingStyle ++ "strokeWidth=2.5;strokeColor=#9775fa;opacity=85;"
    else if isCleanup then
      baseStyle ++ routingStyle ++ "strokeWidth=2;strokeColor=#fd7e14;dashed=1;opacity=80;"
    else
      baseStyle ++ routingStyle ++ "strokeWidth=2;strokeColor=#339af0;opacity=85;"
  else if isUpward then
    if isErrorHandling then
      baseStyle ++ "edgeStyle=elbowEdgeStyle;elbow=vertical;" ++ "strokeWidth=2.5;strokeColor=#e53e3e;dashed=1;opacity=80;"
    else
      baseStyle ++ "edgeStyle=elbowEdgeStyle;elbow=vertical;" ++ "strokeWidth=2;strokeColor=#fd7e14;dashed=1;opacity=75;"
  else
    let curveStyle : String :=
      if decide (xDistance > 200) then "edgeStyle=elbowEdgeStyle;elbow=horizontal;"
      else "edgeStyle=orthogonalEdgeStyle;"
    if isErrorHandling then
      baseStyle ++ curveStyle ++ "strokeWidth=2;strokeColor=#e53e3e;opacity=80;"
    else if isUtilityCall then
      baseStyle ++ curveStyle ++ "strokeWidth=1.5;strokeColor=#37b24d;opacity=75;"
    else if isTiming then
      baseStyle ++ curveStyle ++ "strokeWidth=2;strokeColor=#ff8787;opacity=80;"
    else if ioOperation then
      baseStyle ++ curveStyle ++ "strokeWidth=2;strokeColor=#9775fa;opacity=80;"
    else
      baseStyle ++ curveStyle ++ "strokeWidth=2;strokeColor=#38d9a9;opacity=80;"

/-- The flow direction and the six role signals an edge presents to
`get_edge_style` (downward, upward, main-entry source, error target, utility
target, io target, cleanup target, timing target). -/
structure DirRoleSig where
  down : Bool
  up : Bool
  mainEntry : Bool
  errTarget : Bool
  utilTarget : Bool
  inOutTarget : Bool
  cleanupTarget : Bool
  timingTarget : Bool
deriving DecidableEq

/-- The full decision signature of `get_edge_style`: the direction and role
signals plus the two coarse horizontal-distance classes the code consults. -/
structure EdgeSigFull where
  roles : DirRoleSig
  complexRoute : Bool
  lateralCurve : Bool
deriving DecidableEq

/-- The direction and role signals of an edge, as `get_edge_style` computes
them from its inputs. -/
def dirRoleSig (sourceLabel targetLabel : List Char) (_sx sy _tx ty : ℚ) : DirRoleSig :=
  ⟨decide (ty > sy), decide (ty < sy),
   anyKw [sl ("main"), sl ("__main__"), sl ("init"), sl ("setup")] sourceLabel,
   anyKw [sl ("error"), sl ("fail"), sl ("exception"), sl ("abort")] targetLabel,
   anyKw [sl ("get"), sl ("set"), sl ("property"), sl ("util"), sl ("helper")] targetLabel,
   anyKw [sl ("read"), sl ("write"), sl ("input"), sl ("output"), sl ("send"),
     sl ("receive")] targetLabel,
   anyKw [sl ("cleanup"), sl ("close"), sl ("finalize"), sl ("destroy")] targetLabel,
   anyKw [sl ("timer"), sl ("delay"), sl ("wait"), sl ("sleep")] targetLabel⟩

/-- The full decision signature: the direction and role signals together with
the complex-routing disjunction and the lateral 200-pixel curve threshold.
The coordinates only enter through the direction tests and `|tx - sx|`. -/
def edgeSig (sourceLabel targetLabel : List Char) (sx sy tx ty : ℚ) : EdgeSigFull :=
  ⟨dirRoleSig sourceLabel targetLabel sx sy tx ty,
   decide (|tx - sx| > 300) || (decide (ty = sy) && decide (|tx - sx| > 200)) ||
     (decide (ty < sy) && decide (|tx - sx| > 150)),
   decide (|tx - sx| > 200)⟩

/-- A helper dispatch: the style as a function of the decision signature
alone; `getEdgeStyle` factors through it definitionally. -/
def styleOfSig : EdgeSigFull → String :=
  fun sig =>
    let isDownward := sig.roles.down
    let isUpward := sig.roles.up
    let isMainEntry := sig.roles.mainEntry
    let isErrorHandling := sig.roles.errTarget
    let isUtilityCall := sig.roles.utilTarget
    let ioOperation := sig.roles.inOutTarget
    let isCleanup := sig.roles.cleanupTarget
    let isTiming := sig.roles.timingTarget
    let baseStyle : String :=
      "edgeStyle=orthogonalEdgeStyle;rounded=1;orthogonalLoop=1;jettySize=auto;html=1;endArrow=classic;shadow=1;labelBackgroundColor=#ffffff;"
    let routingStyle : String :=
      if sig.complexRoute then "entryX=0.5;entryY=0;exitX=0.5;exitY=1;noEdgeStyle=1;"
      else "entryX=0.5;entryY=0;exitX=0.5;exitY=1;"
    if isDownward then
      if isMainEntry then
        baseStyle ++ routingStyle ++ "strokeWidth=4;strokeColor=#1976d2;fontColor=#1976d2;fontStyle=1;opacity=90;"
      else if isErrorHandling then
        baseStyle ++ routingStyle ++ "strokeWidth=2.5;strokeColor=#e53e3e;dashed=1;opacity=85;"
      else if ioOperation then
        baseStyle ++ routingStyle ++ "strokeWidth=2.5;strokeColor=#9775fa;opacity=85;"
      else if isCleanup then
        baseStyle ++ routingStyle ++ "strokeWidth=2;strokeColor=#fd7e14;dashed=1;opacity=80;"
      else
        baseStyle ++ routingStyle ++ "strokeWidth=2;strokeColor=#339af0;opacity=85;"
    else if isUpward then
      if isErrorHandling then
        baseStyle ++ "edgeStyle=elbowEdgeStyle;elbow=vertical;" ++ "strokeWidth=2.5;strokeColor=#e53e3e;dashed=1;opacity=80;"
      else
        baseStyle ++ "edgeStyle=elbowEdgeStyle;elbow=vertical;" ++ "strokeWidth=2;strokeColor=#fd7e14;dashed=1;opacity=75;"
    else
      let curveStyle : String :=
        if sig.lateralCurve then "edgeStyle=elbowEdgeStyle;elbow=horizontal;"
        else "edgeStyle=orthogonalEdgeStyle;"
      if isErrorHandling then
        baseStyle ++ curveStyle ++ "strokeWidth=2;strokeColor=#e53e3e;opacity=80;"
      else if isUtilityCall then
        baseStyle ++ curveStyle ++ "strokeWidth=1.5;strokeColor=#37b24d;opacity=75;"
      else if isTiming then
        baseStyle ++ curveStyle ++ "strokeWidth=2;strokeColor=#ff8787;opacity=80;"
      else if ioOperation then
        baseStyle ++ curveStyle ++ "strokeWidth=2;strokeColor=#9775fa;opacity=80;"
      else
        baseStyle ++ curveStyle ++ "strokeWidth=2;strokeColor=#38d9a9;opacity=80;"

/-! ## The BFS discovery invariant (C1) -/

/-- The invariant carried through the BFS loop: every queue entry is a root
at level 0 or was enqueued from an already-assigned parent one level above;
the same holds for every assigned level; and the assigned keys are exactly
the visited nodes. -/
def BfsInv (g : Graph) (st : BfsState) : Prop :=
  (∀ q ∈ st.queue, (q.1 ∈ rootsOf g ∧ q.2 = 0) ∨
    ∃ p, p ∈ incoming g q.1 ∧ alGet p st.levels = some (q.2 - 1)) ∧
  (∀ e ∈ st.levels, (e.1 ∈ rootsOf g ∧ e.2 = 0) ∨
    ∃ p, p ∈ incoming g e.1 ∧ alGet p st.levels = some (e.2 - 1)) ∧
  (∀ y, (alGet y st.levels).isSome = true ↔ y ∈ st.visited)

/-- The three-node diamond on which plain BFS produces an equal-rank edge:
a calls b and c, b also calls c, and c is dequeued first at depth 1. -/
def gDiamond : Graph :=
  { nodes := [(sl ("a"), sl ("alpha")), (sl ("b"), sl ("beta")), (sl ("c"), sl ("gamma"))],
    edges := [(sl ("a"), sl ("b")), (sl ("a"), sl ("c")), (sl ("b"), sl ("c"))] }

/-- The chain graph for the cleanup-pull counterexample: a main entry, a
four-node worker chain setting the maximum rank to 4, and a cleanup node at
rank 1 that the rebalancing pulls. -/
def gChainCleanup : Graph :=
  { nodes := [(sl ("m"), sl ("mymain")), (sl ("a1"), sl ("worka")), (sl ("b1"), sl ("workb")),
              (sl ("c1"), sl ("workc")), (sl ("d1"), sl ("workd")), (sl ("z1"), sl ("closeall"))],
    edges := [(sl ("m"), sl ("a1")), (sl ("a1"), sl ("b1")), (sl ("b1"), sl ("c1")),
              (sl ("c1"), sl ("d1")), (sl ("m"), sl ("z1"))] }

/-- The candidate comparison used by the synthetic-root sort. -/
def candLt (g : Graph) (a b : List Char × ℤ) : Bool := lex3Lt (candKey g a) (candKey g b)

/-- The eleven-node cycle: no node has zero incoming edges, all labels are
keyword-free, so root selection scores all eleven candidates equally. -/
def gCyc11 : Graph :=
  { nodes := (List.range 11).map (fun i => (sl ("f") ++ natDecimal i, sl ("fn") ++ natDecimal i)),
    edges := (List.range 11).map (fun i =>
      (sl ("f") ++ natDecimal i, sl ("f") ++ natDecimal ((i + 1) % 11))) }

/-! ## C10: totality of the positions and sizes maps -/

/-- All nodes appearing in some level group. -/
def groupsUnion (gr : List (ℚ × List (List Char))) : List (List Char) :=
  ((gr.map (fun p => p.2)).flatten)

/-- The key bookkeeping carried through the crowding fold: every group key is
an original integer level, or the half-displacement of an integer level that
is no longer among the remaining keys `K`. -/
def CrowdKeysOk (K : List ℚ) (gr : List (ℚ × List (List Char))) : Prop :=
  ∀ k ∈ gr.map (fun p => p.1),
    (∃ z : ℤ, k = (z : ℚ)) ∨ ∃ z : ℤ, k = (z : ℚ) + 1/2 ∧ ((z : ℚ)) ∉ K

def gIso : Graph :=
  { nodes := [(sl ("a"), sl ("a")), (sl ("b"), sl ("b")), (sl ("c"), sl ("c"))],
    edges := [(sl ("a"), sl ("b"))] }

/-- C3 (counterexample): the claim asserts that "initialize" and "init" merge
via stripping of the fixed verb-prefix set; on the code `are_labels_similar`
returns False for this pair, because the verb patterns all contain an
underscore, which the normalisation has already removed, and the substring
path fails the 1.5 length-ratio test (10 > 1.5 * 4). -/
theorem C3_initialize_init_counterexample :
    areLabelsSimilar (sl ("initialize")) (sl ("init")) = false := by decide

/-- C3 (amended): the label-similarity test merges "get_data" with "getData"
(both normalise to "getdata"), does NOT merge "initialize" with "init" (the
verb-pattern stripping cannot fire on normalised labels, which contain no
underscore, and the normalised length ratio 10/4 exceeds 1.5), and does not
merge "processOrder" with "processOrderValidation" (ratio 22/12 exceeds 1.5). -/
theorem C3_label_similarity_examples :
    areLabelsSimilar (sl ("get_data")) (sl ("getData")) = true ∧
    areLabelsSimilar (sl ("initialize")) (sl ("init")) = false ∧
    areLabelsSimilar (sl ("processOrder")) (sl ("processOrderValidation")) = false := by
  refine ⟨by decide, by decide, by decide⟩

/-- C7 (counterexample): the claim asserts that every cleaned label longer
than 22 characters is truncated to 22 characters plus an ellipsis, i.e. is 25
characters ending in "...". The 23-character label below survives cleaning
unchanged: it is longer than 22 characters, is not truncated (the code's
threshold is length > 25), and does not have 25 characters. -/
theorem C7_length23_counterexample :
    cleanNodeLabel 1 (sl ("abcdefghijklmnopqrstuvw")) = sl ("abcdefghijklmnopqrstuvw") ∧
    (sl ("abcdefghijklmnopqrstuvw")).length = 23 ∧
    (cleanNodeLabel 1 (sl ("abcdefghijklmnopqrstuvw"))).length ≠ 25 := by
  refine ⟨by decide, by decide, by decide⟩

/-- C7 (amended): for a nonempty raw label, normalization truncates to the
first 22 characters plus an ellipsis exactly when the cleaned (or fallback)
form is longer than 25 characters — not 22 as claimed — so every normalized
label has at most 25 characters, and a truncated one has exactly 25. -/
theorem C7_truncation_at_25 (counter : Nat) (cs : List Char) (h : cs ≠ []) :
    (cleanNodeLabel counter cs).length ≤ 25 ∧
    (25 < (cleanPreTrunc counter cs).length →
      cleanNodeLabel counter cs = (cleanPreTrunc counter cs).take 22 ++ sl ("...") ∧
      (cleanNodeLabel counter cs).length = 25) := by
  unfold cleanNodeLabel
  rw [if_neg h]
  by_cases h25 : 25 < (cleanPreTrunc counter cs).length
  · rw [if_pos h25]
    have hlen : ((cleanPreTrunc counter cs).take 22 ++ sl ("...")).length = 25 := by
      simp only [List.length_append, List.length_take, sl, String.toList]
      simp
      omega
    exact ⟨le_of_eq hlen, fun _ => ⟨rfl, hlen⟩⟩
  · rw [if_neg h25]
    exact ⟨by omega, fun hc => absurd hc h25⟩

/-- C7 (witness): the amended theorem applied to a concrete 30-character
label, whose cleaned form is itself and is truncated to 25 characters. -/
theorem C7_truncation_witness :
    (cleanNodeLabel 1 (sl ("abcdefghijklmnopqrstuvwxyzABCD"))).length ≤ 25 ∧
    (25 < (cleanPreTrunc 1 (sl ("abcdefghijklmnopqrstuvwxyzABCD"))).length →
      cleanNodeLabel 1 (sl ("abcdefghijklmnopqrstuvwxyzABCD")) =
        (cleanPreTrunc 1 (sl ("abcdefghijklmnopqrstuvwxyzABCD"))).take 22 ++ sl ("...") ∧
      (cleanNodeLabel 1 (sl ("abcdefghijklmnopqrstuvwxyzABCD"))).length = 25) :=
  C7_truncation_at_25 1 (sl ("abcdefghijklmnopqrstuvwxyzABCD")) (by decide)

/-! ## Lemmas about the synthetic fallback label -/

theorem natDecimalGo_ne_nil (fuel n : Nat) (h : fuel ≠ 0) : natDecimalGo fuel n ≠ [] := by
  cases fuel with
  | zero => exact absurd rfl h
  | succ f =>
    unfold natDecimalGo
    split <;> simp

theorem natDecimal_ne_nil (n : Nat) : natDecimal n ≠ [] :=
  natDecimalGo_ne_nil _ _ (Nat.succ_ne_zero n)

theorem synth_length (n : Nat) : 5 ≤ (sl ("Node") ++ natDecimal n).length := by
  have h := List.length_pos.mpr (natDecimal_ne_nil n)
  have h4 : (sl ("Node")).length = 4 := by decide
  rw [List.length_append, h4]
  omega

theorem lowerStr_not_reserved (rest : List Char) (hl : 5 ≤ ('N' :: rest).length) :
    lowerStr ('N' :: rest) ∉ reservedNames := by
  intro hmem
  have hlow : lowerStr ('N' :: rest) = 'n' :: lowerStr rest := by
    have h1 : Char.toLower 'N' = 'n' := by decide
    simp [lowerStr, h1]
  rw [hlow] at hmem
  simp only [reservedNames, List.mem_cons, List.not_mem_nil, or_false] at hmem
  rcases hmem with h | h | h
  · have hlen := congrArg List.length h
    have h4 : (sl ("node")).length = 4 := by decide
    rw [h4, List.length_cons] at hlen
    have hr : rest.length + 1 = (lowerStr rest).length + 1 := by
      simp [lowerStr]
    simp only [List.length_cons] at hl
    omega
  · have hg : sl ("graph") = 'g' :: sl ("raph") := rfl
    rw [hg] at h
    have := (List.cons.injEq _ _ _ _).mp h
    exact absurd this.1 (by decide)
  · have hc : sl ("cluster") = 'c' :: sl ("luster") := rfl
    rw [hc] at h
    have := (List.cons.injEq _ _ _ _).mp h
    exact absurd this.1 (by decide)

theorem synthetic_not_reserved (n : Nat) :
    lowerStr (sl ("Node") ++ natDecimal n) ∉ reservedNames := by
  have h : sl ("Node") ++ natDecimal n = 'N' :: (sl ("ode") ++ natDecimal n) := rfl
  rw [h]
  apply lowerStr_not_reserved
  rw [← h]
  exact synth_length n

theorem synthetic_trunc_not_reserved (n : Nat) :
    lowerStr ((sl ("Node") ++ natDecimal n).take 22 ++ sl ("...")) ∉ reservedNames := by
  have h : (sl ("Node") ++ natDecimal n).take 22 ++ sl ("...") =
      'N' :: (((sl ("ode") ++ natDecimal n)).take 21 ++ sl ("...")) := rfl
  rw [h]
  apply lowerStr_not_reserved
  have h3 : (sl ("...")).length = 3 := by decide
  have hode : (sl ("ode")).length = 3 := by decide
  simp only [List.length_cons, List.length_append, List.length_take, h3, hode]
  omega

/-- C6 (counterexample): the claim asserts that a node whose normalized label
is the reserved word "graph" is still minted with a generated label; on the
code the node is skipped outright — no node is minted and the state's node
map stays empty. -/
theorem C6_reserved_drop_counterexample :
    (ingestNode (sl ("f.dot")) (sl ("Node1")) (sl ("graph")) initState).2 =
      NodeOutcome.droppedReserved ∧
    (ingestNode (sl ("f.dot")) (sl ("Node1")) (sl ("graph")) initState).1.simpleToLabel = [] := by
  refine ⟨by decide, by decide⟩

/-- C6 (amended): when cleaning a node label yields an empty result the node
is indeed kept — the synthetic `Node{counter}` label is used and the node is
merged or minted, never dropped; but when the cleaned label is one of the
reserved words ("node"/"graph"/"cluster"), the node is dropped, not minted. -/
theorem C6_empty_fallback_reserved_drop (st : IngestState) (fb origId raw : List Char)
    (h : (fb ++ sl ("::") ++ origId) ∉ st.processedNodes) :
    (cleanCore raw = [] →
      ∃ i, (ingestNode fb origId raw st).2 = NodeOutcome.merged i ∨
        (ingestNode fb origId raw st).2 = NodeOutcome.minted i) ∧
    (lowerStr (cleanNodeLabel st.nodeCounter raw) ∈ reservedNames →
      (ingestNode fb origId raw st).2 = NodeOutcome.droppedReserved) := by
  constructor
  · intro hcore
    have hcl : cleanNodeLabel st.nodeCounter raw = sl ("Node") ++ natDecimal st.nodeCounter ∨
        cleanNodeLabel st.nodeCounter raw =
          (sl ("Node") ++ natDecimal st.nodeCounter).take 22 ++ sl ("...") := by
      unfold cleanNodeLabel
      by_cases hraw : raw = []
      · rw [if_pos hraw]; exact Or.inl rfl
      · rw [if_neg hraw]
        have hpre : cleanPreTrunc st.nodeCounter raw = sl ("Node") ++ natDecimal st.nodeCounter := by
          unfold cleanPreTrunc
          rw [hcore, if_pos rfl]
        rw [hpre]
        split
        · exact Or.inr rfl
        · exact Or.inl rfl
    have hne : cleanNodeLabel st.nodeCounter raw ≠ [] := by
      rcases hcl with hc | hc
      · rw [hc]
        intro hx
        have := congrArg List.length hx
        rw [List.length_append] at this
        have h4 : (sl ("Node")).length = 4 := by decide
        rw [h4] at this
        simp at this
      · rw [hc]
        intro hx
        have := congrArg List.length hx
        rw [List.length_append] at this
        have h3 : (sl ("...")).length = 3 := by decide
        rw [h3] at this
        simp at this
    have hres : lowerStr (cleanNodeLabel st.nodeCounter raw) ∉ reservedNames := by
      rcases hcl with hc | hc <;> rw [hc]
      · exact synthetic_not_reserved st.nodeCounter
      · exact synthetic_trunc_not_reserved st.nodeCounter
    unfold ingestNode
    rw [if_neg h, if_neg (by push_neg; exact ⟨hne, hres⟩)]
    cases hfind : findSimilarNode st.labelToSimple (cleanNodeLabel st.nodeCounter raw) with
    | none =>
      simp only [hfind]
      exact ⟨simpleIdOf st.nodeCounter, Or.inr rfl⟩
    | some i =>
      simp only [hfind]
      exact ⟨i, Or.inl rfl⟩
  · intro hresv
    unfold ingestNode
    rw [if_neg h, if_pos (Or.inr hresv)]

/-- C6 (witness): the amended theorem applied to the raw label "()" on the
empty state; its cleaning yields the empty string, so the node is processed
with the synthetic label instead of being dropped. -/
theorem C6_empty_fallback_witness :
    (cleanCore (sl ("()")) = [] →
      ∃ i, (ingestNode (sl ("f.dot")) (sl ("N2")) (sl ("()")) initState).2 = NodeOutcome.merged i ∨
        (ingestNode (sl ("f.dot")) (sl ("N2")) (sl ("()")) initState).2 = NodeOutcome.minted i) ∧
    (lowerStr (cleanNodeLabel initState.nodeCounter (sl ("()"))) ∈ reservedNames →
      (ingestNode (sl ("f.dot")) (sl ("N2")) (sl ("()")) initState).2 =
        NodeOutcome.droppedReserved) :=
  C6_empty_fallback_reserved_drop initState (sl ("f.dot")) (sl ("N2")) (sl ("()")) (by decide)

/-! ## C8: no self-loops, no duplicate edges -/

theorem addEdge_noSelf (o : List (List Char × List Char)) (fb : List Char)
    (acc : List (List Char × List Char) × List (List Char × List Char))
    (raw : List Char × List Char) (h : ∀ e ∈ acc.1, e.1 ≠ e.2) :
    ∀ e ∈ (addEdge o fb acc raw).1, e.1 ≠ e.2 := by
  unfold addEdge
  cases resolveEndpoint o fb raw.1 with
  | none => exact h
  | some s =>
    cases resolveEndpoint o fb raw.2 with
    | none => exact h
    | some t =>
      simp only []
      split
      · split
        · intro e he
          rcases List.mem_append.mp he with he1 | he1
          · exact h e he1
          · rcases List.mem_singleton.mp he1 with rfl
            assumption
        · exact h
      · exact h

theorem foldl_addEdge_noSelf (o : List (List Char × List Char)) (fb : List Char)
    (raws : List (List Char × List Char)) :
    ∀ acc, (∀ e ∈ acc.1, e.1 ≠ e.2) →
      ∀ e ∈ (raws.foldl (addEdge o fb) acc).1, e.1 ≠ e.2 := by
  induction raws with
  | nil => intro acc h; exact h
  | cons r rest ih =>
    intro acc h
    exact ih _ (addEdge_noSelf o fb acc r h)

theorem filesFold_noSelf (files : List FileEdgeData) :
    ∀ acc, (∀ e ∈ acc, e.1 ≠ e.2) →
      ∀ e ∈ files.foldl (fun acc f => processFileEdges f.aliases f.basename f.rawPairs acc) acc,
        e.1 ≠ e.2 := by
  induction files with
  | nil => intro acc h; exact h
  | cons f rest ih =>
    intro acc h
    exact ih _ (foldl_addEdge_noSelf f.aliases f.basename f.rawPairs (acc, []) h)

theorem dedupEdges_nodup_go (l : List (List Char × List Char)) :
    ∀ acc, acc.Nodup →
      (l.foldl (fun acc e => if e ∈ acc then acc else acc ++ [e]) acc).Nodup := by
  induction l with
  | nil => intro acc h; exact h
  | cons e rest ih =>
    intro acc h
    by_cases he : e ∈ acc
    · simpa [he] using ih acc h
    · have : (acc ++ [e]).Nodup := by
        simp [List.nodup_append, h, he]
      simpa [he] using ih _ this

theorem dedupEdges_mem_go (l : List (List Char × List Char)) :
    ∀ acc x, x ∈ l.foldl (fun acc e => if e ∈ acc then acc else acc ++ [e]) acc →
      x ∈ acc ∨ x ∈ l := by
  induction l with
  | nil => intro acc x h; exact Or.inl h
  | cons e rest ih =>
    intro acc x h
    rw [List.foldl_cons] at h
    by_cases he : e ∈ acc
    · rw [if_pos he] at h
      rcases ih acc x h with h1 | h1
      · exact Or.inl h1
      · exact Or.inr (List.mem_cons_of_mem _ h1)
    · rw [if_neg he] at h
      rcases ih _ x h with h1 | h1
      · rcases List.mem_append.mp h1 with h2 | h2
        · exact Or.inl h2
        · exact Or.inr (List.mem_cons.mpr (Or.inl (List.mem_singleton.mp h2)))
      · exact Or.inr (List.mem_cons_of_mem _ h1)

/-- C8: in the final edge list after ingesting every document and the final
deduplication pass, no edge is a self-loop and no ordered pair occurs twice
— for any documents, alias tables, and raw edge matches whatsoever. -/
theorem C8_no_self_loops_no_duplicates (files : List FileEdgeData) :
    (ingestEdgesRun files).Nodup ∧ ∀ e ∈ ingestEdgesRun files, e.1 ≠ e.2 := by
  constructor
  · exact dedupEdges_nodup_go _ [] List.nodup_nil
  · intro e he
    rcases dedupEdges_mem_go _ [] e he with h | h
    · exact absurd h (List.not_mem_nil e)
    · exact filesFold_noSelf files [] (fun e he => absurd he (List.not_mem_nil e)) e h

theorem getEdgeStyle_factors (sourceLabel targetLabel : List Char) (sx sy tx ty : ℚ) :
    getEdgeStyle sourceLabel targetLabel sx sy tx ty =
      styleOfSig (edgeSig sourceLabel targetLabel sx sy tx ty) := rfl

set_option maxRecDepth 8000 in
/-- C5 (counterexample): the claim asserts the style string depends only on
the flow direction and the role signals. These two edges agree on both (same
labels, both downward) yet receive different style strings, because the code
also consults the horizontal distance (0 versus 400, against the 300
threshold of the complex-routing test). -/
theorem C5_distance_dependence_counterexample :
    dirRoleSig (sl ("worka")) (sl ("workb")) 0 0 0 100 =
      dirRoleSig (sl ("worka")) (sl ("workb")) 0 0 400 100 ∧
    getEdgeStyle (sl ("worka")) (sl ("workb")) 0 0 0 100 ≠
      getEdgeStyle (sl ("worka")) (sl ("workb")) 0 0 400 100 := by
  refine ⟨by decide, by decide⟩

/-- C5 (amended): the edge style is a deterministic total function of the
flow direction, the source/target role signals, and additionally the two
coarse horizontal-distance classes the code tests (the complex-routing
disjunction over |Δx| > 300/200/150 and the lateral |Δx| > 200 curve
threshold); two edges agreeing on this full signature always receive the
identical style string, whatever their labels and coordinates. -/
theorem C5_style_determined_by_signature
    (s1 t1 s2 t2 : List Char) (ax ay bx bY cx cy dx dy : ℚ)
    (h : edgeSig s1 t1 ax ay bx bY = edgeSig s2 t2 cx cy dx dy) :
    getEdgeStyle s1 t1 ax ay bx bY = getEdgeStyle s2 t2 cx cy dx dy := by
  rw [getEdgeStyle_factors, getEdgeStyle_factors, h]

set_option maxRecDepth 8000 in
/-- C5 (witness): the amended theorem applied to two concrete edges with
different labels and coordinates but the same decision signature. -/
theorem C5_style_determined_witness :
    getEdgeStyle (sl ("worka")) (sl ("workb")) 0 0 10 50 =
      getEdgeStyle (sl ("workc")) (sl ("workd")) 100 7 120 57 :=
  C5_style_determined_by_signature (sl ("worka")) (sl ("workb")) (sl ("workc")) (sl ("workd"))
    0 0 10 50 100 7 120 57 (by decide)

/-! ## Association-list and sort lemmas -/

theorem alGet_nil {α : Type} (k : List Char) : alGet (α := α) k [] = none := rfl

theorem alGet_cons {α : Type} (k : List Char) (p : List Char × α) (m : List (List Char × α)) :
    alGet k (p :: m) = if p.1 = k then some p.2 else alGet k m := by
  by_cases h : p.1 = k
  · simp [alGet, List.find?, h]
  · simp [alGet, List.find?, h]

theorem alGet_alSet_self {α : Type} (k : List Char) (v : α) (m : List (List Char × α)) :
    alGet k (alSet k v m) = some v := by
  induction m with
  | nil => simp [alSet, alGet, List.find?]
  | cons p rest ih =>
    by_cases h : p.1 = k
    · simp [alSet, h, alGet, List.find?]
    · simp only [alSet, if_neg h]
      rw [alGet_cons]
      rw [if_neg h]
      exact ih

theorem alGet_alSet_ne {α : Type} (k k2 : List Char) (v : α) (m : List (List Char × α))
    (h : k2 ≠ k) : alGet k2 (alSet k v m) = alGet k2 m := by
  have hkk : ¬ ((k : List Char) = k2) := fun hh => h hh.symm
  induction m with
  | nil =>
    show alGet k2 [(k, v)] = alGet k2 []
    rw [alGet_cons, alGet_nil, if_neg hkk]
  | cons p rest ih =>
    by_cases hp : p.1 = k
    · rw [alSet, if_pos hp, alGet_cons, alGet_cons]
      rw [if_neg hkk, if_neg (by rw [hp]; exact hkk)]
    · rw [alSet, if_neg hp, alGet_cons, alGet_cons]
      by_cases hk2 : p.1 = k2
      · rw [if_pos hk2, if_pos hk2]
      · rw [if_neg hk2, if_neg hk2]
        exact ih

theorem alGet_mem {α : Type} {k : List Char} {m : List (List Char × α)} {v : α}
    (h : alGet k m = some v) : (k, v) ∈ m := by
  induction m with
  | nil => simp [alGet, List.find?] at h
  | cons p rest ih =>
    rw [alGet_cons] at h
    by_cases hp : p.1 = k
    · rw [if_pos hp] at h
      injection h with h
      rcases p with ⟨p1, p2⟩
      refine List.mem_cons.mpr (Or.inl ?_)
      simp only [] at hp h
      rw [hp, h]
    · rw [if_neg hp] at h
      exact List.mem_cons_of_mem _ (ih h)

theorem alGet_isSome_alSet {α : Type} (k k2 : List Char) (v : α) (m : List (List Char × α)) :
    (alGet k2 (alSet k v m)).isSome = true ↔ k2 = k ∨ (alGet k2 m).isSome = true := by
  by_cases h : k2 = k
  · subst h
    simp [alGet_alSet_self]
  · rw [alGet_alSet_ne k k2 v m h]
    simp [h]

theorem mem_alSet {α : Type} {e : List Char × α} {k : List Char} {v : α}
    {m : List (List Char × α)} (h : e ∈ alSet k v m) : e = (k, v) ∨ e ∈ m := by
  induction m with
  | nil => simpa [alSet] using h
  | cons p rest ih =>
    by_cases hp : p.1 = k
    · rw [alSet, if_pos hp] at h
      rcases List.mem_cons.mp h with h1 | h1
      · exact Or.inl h1
      · exact Or.inr (List.mem_cons_of_mem _ h1)
    · rw [alSet, if_neg hp] at h
      rcases List.mem_cons.mp h with h1 | h1
      · exact Or.inr (List.mem_cons.mpr (Or.inl h1))
      · rcases ih h1 with h2 | h2
        · exact Or.inl h2
        · exact Or.inr (List.mem_cons_of_mem _ h2)

theorem mem_insertDescBy {α : Type} (lt : α → α → Bool) (x y : α) (l : List α) :
    y ∈ insertDescBy lt x l ↔ y = x ∨ y ∈ l := by
  induction l with
  | nil => simp [insertDescBy]
  | cons z rest ih =>
    by_cases h : lt z x = true
    · simp [insertDescBy, h]
    · simp only [insertDescBy, if_neg h, List.mem_cons, ih]
      tauto

theorem insertDescBy_perm {α : Type} (lt : α → α → Bool) (x : α) (l : List α) :
    List.Perm (insertDescBy lt x l) (x :: l) := by
  induction l with
  | nil => rfl
  | cons z rest ih =>
    by_cases h : lt z x = true
    · simp [insertDescBy, h]
    · rw [insertDescBy, if_neg h]
      exact (ih.cons z).trans (List.Perm.swap x z rest)

theorem foldl_insertDescBy_perm {α : Type} (lt : α → α → Bool) (l : List α) :
    ∀ acc : List α,
      List.Perm (l.foldl (fun acc x => insertDescBy lt x acc) acc) (acc ++ l) := by
  induction l with
  | nil => intro acc; simp
  | cons x rest ih =>
    intro acc
    have h1 := ih (insertDescBy lt x acc)
    have h2 := (insertDescBy_perm lt x acc).append_right rest
    have h3 : List.Perm ((x :: acc) ++ rest) (acc ++ x :: rest) := List.perm_middle.symm
    exact ((h1.trans h2).trans h3)

theorem sortDescBy_perm {α : Type} (lt : α → α → Bool) (l : List α) :
    List.Perm (sortDescBy lt l) l := by
  simpa using foldl_insertDescBy_perm lt l []

theorem mem_sortDescBy {α : Type} (lt : α → α → Bool) (x : α) (l : List α) :
    x ∈ sortDescBy lt l ↔ x ∈ l :=
  (sortDescBy_perm lt l).mem_iff

theorem insertAscBy_perm {α : Type} (lt : α → α → Bool) (x : α) (l : List α) :
    List.Perm (insertAscBy lt x l) (x :: l) := by
  induction l with
  | nil => rfl
  | cons z rest ih =>
    by_cases h : lt x z = true
    · simp [insertAscBy, h]
    · rw [insertAscBy, if_neg h]
      exact (ih.cons z).trans (List.Perm.swap x z rest)

theorem foldl_insertAscBy_perm {α : Type} (lt : α → α → Bool) (l : List α) :
    ∀ acc : List α,
      List.Perm (l.foldl (fun acc x => insertAscBy lt x acc) acc) (acc ++ l) := by
  induction l with
  | nil => intro acc; simp
  | cons x rest ih =>
    intro acc
    have h1 := ih (insertAscBy lt x acc)
    have h2 := (insertAscBy_perm lt x acc).append_right rest
    have h3 : List.Perm ((x :: acc) ++ rest) (acc ++ x :: rest) := List.perm_middle.symm
    exact ((h1.trans h2).trans h3)

theorem sortAscBy_perm {α : Type} (lt : α → α → Bool) (l : List α) :
    List.Perm (sortAscBy lt l) l := by
  simpa using foldl_insertAscBy_perm lt l []

theorem mem_sortAscBy {α : Type} (lt : α → α → Bool) (x : α) (l : List α) :
    x ∈ sortAscBy lt l ↔ x ∈ l :=
  (sortAscBy_perm lt l).mem_iff

/-! ## Adjacency lemmas -/

theorem mem_outgoing {g : Graph} {n c : List Char} :
    c ∈ outgoing g n ↔ (n, c) ∈ validEdges g := by
  constructor
  · intro h
    rcases List.mem_map.mp h with ⟨e, he, rfl⟩
    rcases List.mem_filter.mp he with ⟨he1, he2⟩
    have : e.1 = n := of_decide_eq_true he2
    rcases e with ⟨e1, e2⟩
    cases this
    exact he1
  · intro h
    exact List.mem_map.mpr ⟨(n, c), List.mem_filter.mpr ⟨h, by simp⟩, rfl⟩

theorem mem_incoming {g : Graph} {n p : List Char} :
    p ∈ incoming g n ↔ (p, n) ∈ validEdges g := by
  constructor
  · intro h
    rcases List.mem_map.mp h with ⟨e, he, rfl⟩
    rcases List.mem_filter.mp he with ⟨he1, he2⟩
    have : e.2 = n := of_decide_eq_true he2
    rcases e with ⟨e1, e2⟩
    cases this
    exact he1
  · intro h
    exact List.mem_map.mpr ⟨(p, n), List.mem_filter.mpr ⟨h, by simp⟩, rfl⟩

theorem outgoing_incoming {g : Graph} {n c : List Char} (h : c ∈ outgoing g n) :
    n ∈ incoming g c :=
  mem_incoming.mpr (mem_outgoing.mp h)

theorem bfsRun_inv (g : Graph) (fuel : Nat) :
    ∀ st, BfsInv g st → BfsInv g (bfsRun g fuel st) := by
  induction fuel with
  | zero => intro st h; exact h
  | succ f ih =>
    rintro ⟨queue, visited, levels⟩ ⟨hq, hl, hv⟩
    dsimp only at hq hl hv
    rcases queue with _ | ⟨⟨node, level⟩, qrest⟩
    · rw [bfsRun]
      exact ⟨hq, hl, hv⟩
    · rw [bfsRun]
      by_cases hvis : node ∈ visited
      · rw [if_pos hvis]
        refine ih _ ⟨?_, hl, hv⟩
        intro q hmem
        exact hq q (List.mem_cons_of_mem _ hmem)
      · rw [if_neg hvis]
        have hnone : alGet node levels = none := by
          rcases ho : alGet node levels with _ | v
          · rfl
          · exact absurd ((hv node).mp (by rw [ho]; rfl)) hvis
        have hstable : ∀ (p : List Char) (w : ℤ), alGet p levels = some w →
            alGet p (alSet node level levels) = some w := by
          intro p w hp2
          rw [alGet_alSet_ne node p level _ ?_]
          · exact hp2
          · intro hpe
            rw [hpe, hnone] at hp2
            exact Option.noConfusion hp2
        refine ih _ ⟨?_, ?_, ?_⟩
        · -- queue invariant for qrest ++ enqueued children
          intro q hmem
          simp only [hnone] at hmem
          rcases List.mem_append.mp hmem with hm | hm
          · rcases hq q (List.mem_cons_of_mem _ hm) with h1 | ⟨p, hp1, hp2⟩
            · exact Or.inl h1
            · exact Or.inr ⟨p, hp1, by simp only [hnone]; exact hstable p _ hp2⟩
          · rcases List.mem_map.mp hm with ⟨c, hc1, hc2⟩
            have hcout : c ∈ outgoing g node := by
              have := (List.mem_filter.mp hc1).1
              exact (mem_sortDescBy _ c _).mp this
            refine Or.inr ⟨node, ?_, ?_⟩
            · rw [← hc2]
              exact outgoing_incoming hcout
            · rw [← hc2]
              simp only [hnone]
              rw [alGet_alSet_self]
              congr 1
              omega
        · -- levels invariant for the extended assignment
          intro e hmem
          simp only [hnone] at hmem
          rcases mem_alSet hmem with he | he
          · rcases hq (node, level) (List.mem_cons_self _ _) with h1 | ⟨p, hp1, hp2⟩
            · rw [he]
              exact Or.inl h1
            · refine Or.inr ⟨p, by rw [he]; exact hp1, ?_⟩
              rw [he]
              simp only [hnone]
              exact hstable p _ hp2
          · rcases hl e he with h1 | ⟨p, hp1, hp2⟩
            · exact Or.inl h1
            · exact Or.inr ⟨p, hp1, by simp only [hnone]; exact hstable p _ hp2⟩
        · -- assigned keys are the visited nodes
          intro y
          simp only [hnone]
          rw [alGet_isSome_alSet, hv y]
          simp [List.mem_append]
          tauto

/-- C1 (amended): every node ranked by the BFS that is not a selected root
has a BFS discovery edge: an incoming edge from a node ranked exactly one
lower. (Edges other than discovery edges can violate rank(target) >
rank(source) even when rebalancing never touches their endpoints, as the
counterexample shows.) -/
theorem C1_bfs_discovery_edge (g : Graph) (x : List Char) (l : ℤ)
    (hx : alGet x (bfsLevels g) = some l) (hroot : x ∉ rootsOf g) :
    ∃ p, p ∈ incoming g x ∧ alGet p (bfsLevels g) = some (l - 1) := by
  have hinv : BfsInv g
      { queue := ((rootsOf g).map (fun r => (r, 0))), visited := [], levels := [] } := by
    refine ⟨?_, ?_, ?_⟩
    · intro q hmem
      rcases List.mem_map.mp hmem with ⟨r, hr, rfl⟩
      exact Or.inl ⟨hr, rfl⟩
    · intro e hmem
      exact absurd hmem (List.not_mem_nil e)
    · intro y
      simp [alGet, List.find?]
  have hfin := bfsRun_inv g (bfsFuel g) _ hinv
  obtain ⟨_, hl, _⟩ := hfin
  rcases hl (x, l) (alGet_mem hx) with h1 | ⟨p, hp1, hp2⟩
  · exact absurd h1.1 hroot
  · exact ⟨p, hp1, hp2⟩

/-- C1 (counterexample): in the diamond graph no rank is modified by the
error/cleanup rebalancing (the refinement pass is the identity here), the
edge b→c is in the final graph, and yet rank(c) = rank(b) = 1: the claimed
strict monotonicity fails for an edge untouched by rebalancing. -/
theorem C1_equal_rank_counterexample :
    (sl ("b"), sl ("c")) ∈ gDiamond.edges ∧
    refineLevels gDiamond (bfsLevels gDiamond) = bfsLevels gDiamond ∧
    alGet (sl ("b")) (levelsAfterFallback gDiamond) = some 1 ∧
    alGet (sl ("c")) (levelsAfterFallback gDiamond) = some 1 ∧
    ¬ (levGet (levelsAfterFallback gDiamond) (sl ("b")) 0 <
        levGet (levelsAfterFallback gDiamond) (sl ("c")) 0) := by
  refine ⟨by decide, by decide, by decide, by decide, by decide⟩

/-- C1 (witness): the discovery-edge theorem applied to node b of the diamond
graph at level 1; its discovery parent is a at level 0. -/
theorem C1_bfs_discovery_witness :
    ∃ p, p ∈ incoming gDiamond (sl ("b")) ∧
      alGet p (bfsLevels gDiamond) = some (1 - 1) :=
  C1_bfs_discovery_edge gDiamond (sl ("b")) 1 (by decide) (by decide)

/-! ## C2: the cleanup rebalancing pull -/

theorem levGet_alSet_self (k : List Char) (v : ℤ) (lv : List (List Char × ℤ)) (d : ℤ) :
    levGet (alSet k v lv) k d = v := by
  unfold levGet
  rw [alGet_alSet_self]

theorem levGet_alSet_ne (k k2 : List Char) (v : ℤ) (lv : List (List Char × ℤ)) (d : ℤ)
    (h : k2 ≠ k) : levGet (alSet k v lv) k2 d = levGet lv k2 d := by
  unfold levGet
  rw [alGet_alSet_ne k k2 v lv h]

theorem cleanupStep_untouched (g : Graph) (base : ℤ) (lv : List (List Char × ℤ))
    (x m : List Char) (h : x ≠ m) :
    levGet (cleanupStep g base lv x) m 0 = levGet lv m 0 := by
  unfold cleanupStep
  split
  · split
    · exact levGet_alSet_ne x m base lv 0 (fun hh => h hh.symm)
    · rfl
  · rfl

theorem cleanupFold_untouched (g : Graph) (base : ℤ) (L : List (List Char)) :
    ∀ lv m, (∀ x ∈ L, x ≠ m) →
      levGet (L.foldl (cleanupStep g base) lv) m 0 = levGet lv m 0 := by
  induction L with
  | nil => intro lv m _; rfl
  | cons x rest ih =>
    intro lv m hx
    rw [List.foldl_cons]
    rw [ih (cleanupStep g base lv x) m (fun y hy => hx y (List.mem_cons_of_mem _ hy))]
    exact cleanupStep_untouched g base lv x m (hx x (List.mem_cons_self _ _))

theorem cleanupFold_spec (g : Graph) (base : ℤ) (L : List (List Char)) :
    ∀ lv n, L.Nodup → n ∈ L →
      levGet (L.foldl (cleanupStep g base) lv) n 0 = levGet lv n 0 ∨
      (levGet (L.foldl (cleanupStep g base) lv) n 0 = base ∧ levGet lv n 0 < base ∧
        ∀ p ∈ incoming g n, (∀ x ∈ L, x ≠ p) → levGet lv p 0 < base) := by
  induction L with
  | nil => intro lv n _ hn; exact absurd hn (List.not_mem_nil n)
  | cons m rest ih =>
    intro lv n hnodup hn
    have hmrest : m ∉ rest := (List.nodup_cons.mp hnodup).1
    have hrest : rest.Nodup := (List.nodup_cons.mp hnodup).2
    rw [List.foldl_cons]
    rcases List.mem_cons.mp hn with rfl | hn2
    · -- n is processed first; the rest of the fold leaves it untouched
      have huntouched : levGet (rest.foldl (cleanupStep g base) (cleanupStep g base lv n)) n 0 =
          levGet (cleanupStep g base lv n) n 0 :=
        cleanupFold_untouched g base rest _ n (fun x hx hxe => hmrest (hxe ▸ hx))
      rw [huntouched]
      unfold cleanupStep
      by_cases h1 : levGet lv n 0 < base
      · rw [if_pos h1]
        by_cases h2 : (incoming g n).all (fun p => decide (levGet lv p 0 < base)) = true
        · rw [if_pos h2]
          refine Or.inr ⟨levGet_alSet_self n base lv 0, h1, ?_⟩
          intro p hp _
          exact of_decide_eq_true (List.all_eq_true.mp h2 p hp)
        · rw [if_neg h2]
          exact Or.inl rfl
      · rw [if_neg h1]
        exact Or.inl rfl
    · -- n is processed later, after the head's step
      have hne : n ≠ m := fun hh => hmrest (hh ▸ hn2)
      have hstep : levGet (cleanupStep g base lv m) n 0 = levGet lv n 0 :=
        cleanupStep_untouched g base lv m n (fun hh => hne hh.symm)
      rcases ih (cleanupStep g base lv m) n hrest hn2 with h1 | ⟨h1, h2, h3⟩
      · rw [hstep] at h1
        exact Or.inl h1
      · rw [hstep] at h2
        refine Or.inr ⟨h1, h2, ?_⟩
        intro p hp hpL
        have hpm : p ≠ m := fun hh => hpL m (List.mem_cons_self _ _) hh.symm
        have := h3 p hp (fun x hx => hpL x (List.mem_cons_of_mem _ hx))
        rw [cleanupStep_untouched g base lv m p (fun hh => hpm hh.symm)] at this
        exact this

theorem groupNodes_nodup (g : Graph) (h : (nodeKeys g).Nodup) (grp : FuncGroup) :
    (groupNodes g grp).Nodup := by
  have h1 : ((connectedNodes g).filter
      (fun p => decide (funcGroup p.2 = grp))).Sublist (connectedNodes g) :=
    List.filter_sublist _
  have h2 : (connectedNodes g).Sublist g.nodes := List.filter_sublist _
  have h3 := (h1.trans h2).map (fun p : List Char × List Char => p.1)
  unfold groupNodes
  unfold nodeKeys at h
  exact h.sublist h3

/-- C2 (counterexample): the claim asserts cleanup nodes are pulled toward
(max rank + 1). In this graph the only cleanup node sits at rank 1, the
maximum rank is 4, and the pull moves it to 3 = max rank − 1, not toward
4 + 1 = 5. -/
theorem C2_cleanup_target_counterexample :
    groupNodes gChainCleanup FuncGroup.cleanupGrp = [sl ("z1")] ∧
    levGet (refineErr gChainCleanup (bfsLevels gChainCleanup)) (sl ("z1")) 0 = 1 ∧
    listMaxD ((connKeys gChainCleanup).map
      (fun m => levGet (refineErr gChainCleanup (bfsLevels gChainCleanup)) m 0)) 0 = 4 ∧
    levGet (refineLevels gChainCleanup (bfsLevels gChainCleanup)) (sl ("z1")) 0 = 3 ∧
    ((3 : ℤ) ≠ 4 + 1) := by
  refine ⟨by decide, by decide, by decide, by decide, by decide⟩

/-- C2 (amended): during rebalancing every cleanup-role node is pulled toward
(max rank − 1), not (max rank + 1): its final rank is either unchanged or
equal to the cleanup base rank, a pull happens only from a strictly lower
rank, and at pull time every direct predecessor sat strictly below the
target, so every predecessor outside the cleanup group still sits strictly
below the pulled node afterwards. (Predecessors inside the cleanup group can
be pulled to the same rank later, so the precedence guard is best-effort,
not a global guarantee.) -/
theorem C2_cleanup_pull_guard (g : Graph) (lv0 : List (List Char × ℤ))
    (hnodup : (nodeKeys g).Nodup) (n : List Char)
    (hn : n ∈ groupNodes g FuncGroup.cleanupGrp) :
    (levGet (refineLevels g lv0) n 0 = levGet (refineErr g lv0) n 0 ∨
      levGet (refineLevels g lv0) n 0 = cleanupBaseOf g (refineErr g lv0)) ∧
    ((levGet (refineLevels g lv0) n 0 = cleanupBaseOf g (refineErr g lv0) ∧
        levGet (refineErr g lv0) n 0 < cleanupBaseOf g (refineErr g lv0)) →
      ∀ p ∈ incoming g n, p ∉ groupNodes g FuncGroup.cleanupGrp →
        levGet (refineLevels g lv0) p 0 < cleanupBaseOf g (refineErr g lv0)) := by
  have hgne : groupNodes g FuncGroup.cleanupGrp ≠ [] := by
    intro hh
    rw [hh] at hn
    exact List.not_mem_nil n hn
  have hunf : refineLevels g lv0 =
      (groupNodes g FuncGroup.cleanupGrp).foldl
        (cleanupStep g (cleanupBaseOf g (refineErr g lv0))) (refineErr g lv0) := by
    unfold refineLevels refineCleanup
    rw [if_pos hgne]
  have hspec := cleanupFold_spec g (cleanupBaseOf g (refineErr g lv0))
    (groupNodes g FuncGroup.cleanupGrp) (refineErr g lv0) n
    (groupNodes_nodup g hnodup _) hn
  rw [hunf]
  rcases hspec with h1 | ⟨h1, h2, h3⟩
  · refine ⟨Or.inl h1, ?_⟩
    rintro ⟨ha, hb⟩
    exfalso
    omega
  · refine ⟨Or.inr h1, ?_⟩
    rintro - p hp hpg
    have hguard : ∀ x ∈ groupNodes g FuncGroup.cleanupGrp, x ≠ p :=
      fun x hx hxe => hpg (hxe ▸ hx)
    rw [cleanupFold_untouched g _ _ _ p hguard]
    exact h3 p hp hguard

/-- C2 (witness): the amended theorem applied to the cleanup node of the
chain graph, which is pulled from rank 1 to the base rank 3. -/
theorem C2_cleanup_pull_witness :
    (levGet (refineLevels gChainCleanup (bfsLevels gChainCleanup)) (sl ("z1")) 0 =
        levGet (refineErr gChainCleanup (bfsLevels gChainCleanup)) (sl ("z1")) 0 ∨
      levGet (refineLevels gChainCleanup (bfsLevels gChainCleanup)) (sl ("z1")) 0 =
        cleanupBaseOf gChainCleanup (refineErr gChainCleanup (bfsLevels gChainCleanup))) ∧
    ((levGet (refineLevels gChainCleanup (bfsLevels gChainCleanup)) (sl ("z1")) 0 =
        cleanupBaseOf gChainCleanup (refineErr gChainCleanup (bfsLevels gChainCleanup)) ∧
      levGet (refineErr gChainCleanup (bfsLevels gChainCleanup)) (sl ("z1")) 0 <
        cleanupBaseOf gChainCleanup (refineErr gChainCleanup (bfsLevels gChainCleanup))) →
      ∀ p ∈ incoming gChainCleanup (sl ("z1")),
        p ∉ groupNodes gChainCleanup FuncGroup.cleanupGrp →
        levGet (refineLevels gChainCleanup (bfsLevels gChainCleanup)) p 0 <
          cleanupBaseOf gChainCleanup (refineErr gChainCleanup (bfsLevels gChainCleanup))) :=
  C2_cleanup_pull_guard gChainCleanup (bfsLevels gChainCleanup) (by decide) (sl ("z1"))
    (by decide)

/-! ## C4: synthetic root selection -/

theorem pairwise_insertDescBy {α : Type} (lt : α → α → Bool)
    (hasym : ∀ a b, lt a b = true → lt b a = false)
    (hchain : ∀ x y z, lt y x = true → lt y z = false → lt x z = false)
    (x : α) (l : List α) (hl : l.Pairwise (fun a b => lt a b = false)) :
    (insertDescBy lt x l).Pairwise (fun a b => lt a b = false) := by
  induction l with
  | nil => simp [insertDescBy]
  | cons y ys ih =>
    rcases List.pairwise_cons.mp hl with ⟨hy, hys⟩
    by_cases h : lt y x = true
    · rw [insertDescBy, if_pos h]
      refine List.pairwise_cons.mpr ⟨?_, hl⟩
      intro z hz
      rcases List.mem_cons.mp hz with rfl | hz2
      · exact hasym z x h
      · exact hchain x y z h (hy z hz2)
    · rw [insertDescBy, if_neg h]
      refine List.pairwise_cons.mpr ⟨?_, ih hys⟩
      intro z hz
      rcases (mem_insertDescBy lt x z ys).mp hz with rfl | hz2
      · exact Bool.eq_false_iff.mpr h
      · exact hy z hz2

theorem pairwise_sortDescBy {α : Type} (lt : α → α → Bool)
    (hasym : ∀ a b, lt a b = true → lt b a = false)
    (hchain : ∀ x y z, lt y x = true → lt y z = false → lt x z = false)
    (l : List α) : (sortDescBy lt l).Pairwise (fun a b => lt a b = false) := by
  have hgo : ∀ (rest : List α) (acc : List α),
      acc.Pairwise (fun a b => lt a b = false) →
      (rest.foldl (fun acc x => insertDescBy lt x acc) acc).Pairwise
        (fun a b => lt a b = false) := by
    intro rest
    induction rest with
    | nil => intro acc h; exact h
    | cons x r ih =>
      intro acc h
      exact ih _ (pairwise_insertDescBy lt hasym hchain x acc h)
  exact hgo l [] List.Pairwise.nil

theorem lex3Lt_asym (a b : ℤ × ℤ × ℤ) (h : lex3Lt a b = true) : lex3Lt b a = false := by
  simp only [lex3Lt, decide_eq_true_eq] at h
  simp only [lex3Lt, decide_eq_false_iff_not]
  omega

theorem lex3Lt_chain (x y z : ℤ × ℤ × ℤ) (h1 : lex3Lt y x = true) (h2 : lex3Lt y z = false) :
    lex3Lt x z = false := by
  simp only [lex3Lt, decide_eq_true_eq] at h1
  simp only [lex3Lt, decide_eq_false_iff_not] at h2
  simp only [lex3Lt, decide_eq_false_iff_not]
  omega

theorem eq_of_mem_fst_nodup {α β : Type} [DecidableEq α] {l : List (α × β)} {a b : α × β}
    (h : (l.map Prod.fst).Nodup) (ha : a ∈ l) (hb : b ∈ l) (hfst : a.1 = b.1) : a = b := by
  induction l with
  | nil => exact absurd ha (List.not_mem_nil a)
  | cons p rest ih =>
    rw [List.map_cons] at h
    rcases List.nodup_cons.mp h with ⟨hp, hrest⟩
    rcases List.mem_cons.mp ha with rfl | ha2
    · rcases List.mem_cons.mp hb with rfl | hb2
      · rfl
      · exact absurd (hfst ▸ List.mem_map_of_mem Prod.fst hb2) hp
    · rcases List.mem_cons.mp hb with rfl | hb2
      · exact absurd (hfst ▸ List.mem_map_of_mem Prod.fst ha2) hp
      · exact ih hrest ha2 hb2

/-- C4 (counterexample): with 11 connected candidates and no natural root the
claim prescribes ⌈11/10⌉ = 2 synthetic roots (clamped to [1,5]); the code
computes `min(5, max(1, 11 // 10))` = 1 and selects a single root. -/
theorem C4_floor_counterexample :
    naturalRoots gCyc11 = [] ∧
    (connectedNodes gCyc11).length = 11 ∧
    (rootsOf gCyc11).length = 1 ∧
    ¬ ((rootsOf gCyc11).length = 2) := by
  refine ⟨by decide, by decide, by decide, by decide⟩

/-- C4 (amended): with no natural roots and a nonempty connected set, root
selection scores every connected node, sorts descending by
(priority, out-degree, −in-degree), and takes exactly the top
`min(5, max(1, ⌊n/10⌋))` nodes — the floor of n/10, not the ceiling: every
selected candidate's key is at least every unselected candidate's key. -/
theorem C4_root_selection (g : Graph) (hnat : naturalRoots g = [])
    (hconn : connectedNodes g ≠ []) (hnodup : (nodeKeys g).Nodup) :
    (rootsOf g).length = min 5 (max 1 ((connectedNodes g).length / 10)) ∧
    (∀ cx ∈ candsOf g, ∀ cy ∈ candsOf g, cx.1 ∈ rootsOf g → cy.1 ∉ rootsOf g →
      lex3Lt (candKey g cx) (candKey g cy) = false) := by
  have hcne : candsOf g ≠ [] := by
    intro hh
    exact hconn (List.map_eq_nil_iff.mp (by rw [← hh]; rfl))
  have hroots : rootsOf g =
      (((sortDescBy (fun a b => lex3Lt (candKey g a) (candKey g b)) (candsOf g)).take
        (min 5 (max 1 ((candsOf g).length / 10)))).map (fun c => c.1)) := by
    unfold rootsOf
    rw [if_neg (by rw [hnat]; simp), if_pos hcne]
  have hlen : (candsOf g).length = (connectedNodes g).length := List.length_map _ _
  have hslen : (sortDescBy (fun a b => lex3Lt (candKey g a) (candKey g b))
      (candsOf g)).length = (candsOf g).length :=
    (sortDescBy_perm _ _).length_eq
  have hkn : min 5 (max 1 ((candsOf g).length / 10)) ≤ (candsOf g).length := by
    have h1 : 1 ≤ (candsOf g).length := List.length_pos.mpr hcne
    have h2 : (candsOf g).length / 10 ≤ (candsOf g).length := Nat.div_le_self _ _
    omega
  constructor
  · rw [hroots, List.length_map, List.length_take, hslen, hlen]
    rw [hlen] at hkn
    omega
  · intro cx hcx cy hcy hxin hyout
    have hpair := pairwise_sortDescBy (fun a b => lex3Lt (candKey g a) (candKey g b))
      (fun a b h => lex3Lt_asym _ _ h)
      (fun x y z h1 h2 => lex3Lt_chain _ _ _ h1 h2) (candsOf g)
    set s := sortDescBy (fun a b => lex3Lt (candKey g a) (candKey g b)) (candsOf g) with hs
    set k := min 5 (max 1 ((candsOf g).length / 10)) with hk
    have hfstnodup : ((candsOf g).map Prod.fst).Nodup := by
      have : (candsOf g).map Prod.fst = (connectedNodes g).map (fun p => p.1) := by
        unfold candsOf
        rw [List.map_map]
        rfl
      rw [this]
      have h2 : (connectedNodes g).Sublist g.nodes := List.filter_sublist _
      unfold nodeKeys at hnodup
      exact hnodup.sublist (h2.map (fun p => p.1))
    -- cx is one of the taken candidates
    rw [hroots] at hxin
    rcases List.mem_map.mp hxin with ⟨c', hc'1, hc'2⟩
    have hc's : c' ∈ s := List.mem_of_mem_take hc'1
    have hc'cands : c' ∈ candsOf g := ((sortDescBy_perm _ _).mem_iff).mp hc's
    have hcxc' : cx = c' := eq_of_mem_fst_nodup hfstnodup hcx hc'cands hc'2.symm
    -- cy is not taken, hence in the dropped suffix
    have hcys : cy ∈ s := ((sortDescBy_perm _ _).mem_iff).mpr hcy
    have hcynot : cy ∉ s.take k := by
      intro hmem
      exact hyout (by rw [hroots]; exact List.mem_map_of_mem (fun c => c.1) hmem)
    have hcydrop : cy ∈ s.drop k := by
      rcases (List.mem_append.mp (by rw [List.take_append_drop k s]; exact hcys)) with hm | hm
      · exact absurd hm hcynot
      · exact hm
    -- the sorted pairwise property crosses the take/drop boundary
    have hsplit : s = s.take k ++ s.drop k := (List.take_append_drop k s).symm
    rw [hsplit] at hpair
    have := (List.pairwise_append.mp hpair).2.2
    rw [hcxc']
    exact this c' hc'1 cy hcydrop

/-- C4 (witness): the amended theorem applied to the eleven-node cycle, where
exactly one synthetic root is selected. -/
theorem C4_root_selection_witness :
    (rootsOf gCyc11).length = min 5 (max 1 ((connectedNodes gCyc11).length / 10)) ∧
    (∀ cx ∈ candsOf gCyc11, ∀ cy ∈ candsOf gCyc11,
      cx.1 ∈ rootsOf gCyc11 → cy.1 ∉ rootsOf gCyc11 →
      lex3Lt (candKey gCyc11 cx) (candKey gCyc11 cy) = false) :=
  C4_root_selection gCyc11 (by decide) (by decide) (by decide)

theorem mem_groupsUnion {gr : List (ℚ × List (List Char))} {n : List Char} :
    n ∈ groupsUnion gr ↔ ∃ p ∈ gr, n ∈ p.2 := by
  induction gr with
  | nil => simp [groupsUnion]
  | cons q rest ih =>
    unfold groupsUnion at ih ⊢
    rw [List.map_cons, List.flatten_cons, List.mem_append, ih]
    constructor
    · rintro (h | ⟨p, hp, hn⟩)
      · exact ⟨q, List.mem_cons_self _ _, h⟩
      · exact ⟨p, List.mem_cons_of_mem _ hp, hn⟩
    · rintro ⟨p, hp, hn⟩
      rcases List.mem_cons.mp hp with rfl | hp2
      · exact Or.inl hn
      · exact Or.inr ⟨p, hp2, hn⟩

theorem fallback_preserves_isSome (g : Graph) (L : List (List Char)) :
    ∀ lv y, (alGet y lv).isSome = true →
      (alGet y (L.foldl (fun lv node =>
        if (alGet node lv).isSome then lv
        else if incoming g node ≠ [] then
          alSet node (listMaxD ((incoming g node).map (fun p => levGet lv p 0)) 0 + 1) lv
        else alSet node 0 lv) lv)).isSome = true := by
  induction L with
  | nil => intro lv y h; exact h
  | cons m rest ih =>
    intro lv y h
    rw [List.foldl_cons]
    apply ih
    split
    · exact h
    · split
      · exact (alGet_isSome_alSet m y _ lv).mpr (Or.inr h)
      · exact (alGet_isSome_alSet m y _ lv).mpr (Or.inr h)

theorem fallback_total_go (g : Graph) (L : List (List Char)) :
    ∀ lv n, n ∈ L →
      (alGet n (L.foldl (fun lv node =>
        if (alGet node lv).isSome then lv
        else if incoming g node ≠ [] then
          alSet node (listMaxD ((incoming g node).map (fun p => levGet lv p 0)) 0 + 1) lv
        else alSet node 0 lv) lv)).isSome = true := by
  induction L with
  | nil => intro lv n hn; exact absurd hn (List.not_mem_nil n)
  | cons m rest ih =>
    intro lv n hn
    rw [List.foldl_cons]
    rcases List.mem_cons.mp hn with rfl | hn2
    · apply fallback_preserves_isSome
      split
      · assumption
      · split
        · exact (alGet_isSome_alSet n n _ lv).mpr (Or.inl rfl)
        · exact (alGet_isSome_alSet n n _ lv).mpr (Or.inl rfl)
    · exact ih _ n hn2

theorem levelsAfterFallback_total (g : Graph) (n : List Char) (hn : n ∈ connKeys g) :
    (alGet n (levelsAfterFallback g)).isSome = true :=
  fallback_total_go g (connKeys g) _ n hn

theorem mem_groupAdd_union (acc : List (ℚ × List (List Char))) (l : ℚ) (n m : List Char) :
    m ∈ groupsUnion (groupAdd acc l n) ↔ m ∈ groupsUnion acc ∨ m = n := by
  induction acc with
  | nil =>
    simp [groupAdd, groupsUnion]
  | cons p rest ih =>
    rcases p with ⟨k, ns⟩
    by_cases hk : k = l
    · rw [groupAdd, if_pos hk]
      unfold groupsUnion
      rw [List.map_cons, List.flatten_cons, List.mem_append,
        List.map_cons, List.flatten_cons, List.mem_append]
      simp only [List.mem_append, List.mem_singleton]
      tauto
    · rw [groupAdd, if_neg hk]
      unfold groupsUnion
      rw [List.map_cons, List.flatten_cons, List.mem_append,
        List.map_cons, List.flatten_cons, List.mem_append]
      unfold groupsUnion at ih
      rw [ih]
      tauto

theorem mem_union_levelGroups_go (entries : List (List Char × ℚ)) (n : List Char) (l : ℚ) :
    ∀ acc, ((n, l) ∈ entries ∨ n ∈ groupsUnion acc) →
      n ∈ groupsUnion (entries.foldl (fun acc p => groupAdd acc p.2 p.1) acc) := by
  induction entries with
  | nil =>
    intro acc h
    rcases h with h | h
    · exact absurd h (List.not_mem_nil _)
    · exact h
  | cons e rest ih =>
    intro acc h
    rw [List.foldl_cons]
    apply ih
    rcases h with h | h
    · rcases List.mem_cons.mp h with he | he
      · have hne : n = e.1 := by rw [← he]
        exact Or.inr ((mem_groupAdd_union acc e.2 e.1 n).mpr (Or.inr hne))
      · exact Or.inl he
    · exact Or.inr ((mem_groupAdd_union acc e.2 e.1 n).mpr (Or.inl h))

theorem mem_union_levelGroups (lv : List (List Char × ℚ)) (n : List Char) (l : ℚ)
    (h : (n, l) ∈ lv) : n ∈ groupsUnion (levelGroups lv) :=
  mem_union_levelGroups_go lv n l [] (Or.inl h)

theorem groupGet_cons (k0 : ℚ) (ns0 : List (List Char)) (rest : List (ℚ × List (List Char)))
    (k : ℚ) : groupGet ((k0, ns0) :: rest) k = if k0 = k then ns0 else groupGet rest k := by
  by_cases h : k0 = k
  · simp [groupGet, List.find?, h]
  · simp [groupGet, List.find?, h]

theorem groupGet_of_mem_nodup {gr : List (ℚ × List (List Char))} {k : ℚ} {ns : List (List Char)}
    (h : (gr.map (fun p => p.1)).Nodup) (hm : (k, ns) ∈ gr) : groupGet gr k = ns := by
  induction gr with
  | nil => exact absurd hm (List.not_mem_nil _)
  | cons p rest ih =>
    rcases p with ⟨k0, ns0⟩
    rw [List.map_cons] at h
    rcases List.nodup_cons.mp h with ⟨hk0, hrest⟩
    rw [groupGet_cons]
    rcases List.mem_cons.mp hm with he | he
    · injection he with h1 h2
      rw [if_pos (by rw [h1])]
      exact h2.symm
    · by_cases hk : k0 = k
      · exfalso
        apply hk0
        rw [hk]
        exact List.mem_map_of_mem (fun p => p.1) he
      · rw [if_neg hk]
        exact ih hrest he

theorem groupSet_keys_mem (l : ℚ) (v : List (List Char)) (gr : List (ℚ × List (List Char)))
    (k2 : ℚ) :
    k2 ∈ (groupSet l v gr).map (fun p => p.1) ↔ k2 ∈ gr.map (fun p => p.1) ∨ k2 = l := by
  induction gr with
  | nil => simp [groupSet]
  | cons p rest ih =>
    rcases p with ⟨k0, ns0⟩
    by_cases h : k0 = l
    · rw [groupSet, if_pos h]
      simp only [List.map_cons, List.mem_cons]
      constructor
      · rintro (rfl | hm)
        · exact Or.inr rfl
        · exact Or.inl (Or.inr hm)
      · rintro ((rfl | hm) | rfl)
        · exact Or.inl h
        · exact Or.inr hm
        · exact Or.inl rfl
    · rw [groupSet, if_neg h]
      simp only [List.map_cons, List.mem_cons, ih]
      tauto

theorem groupSet_keys_nodup (l : ℚ) (v : List (List Char)) (gr : List (ℚ × List (List Char)))
    (h : (gr.map (fun p => p.1)).Nodup) : ((groupSet l v gr).map (fun p => p.1)).Nodup := by
  induction gr with
  | nil => simp [groupSet]
  | cons p rest ih =>
    rcases p with ⟨k0, ns0⟩
    rw [List.map_cons] at h
    rcases List.nodup_cons.mp h with ⟨hk0, hrest⟩
    by_cases hk : k0 = l
    · rw [groupSet, if_pos hk, List.map_cons, List.nodup_cons]
      refine ⟨fun hm => hk0 (hk ▸ hm), hrest⟩
    · rw [groupSet, if_neg hk, List.map_cons, List.nodup_cons]
      refine ⟨?_, ih hrest⟩
      intro hm
      rcases (groupSet_keys_mem l v rest k0).mp hm with h1 | h1
      · exact hk0 h1
      · exact hk h1

theorem mem_groupSet_self (l : ℚ) (v : List (List Char)) (gr : List (ℚ × List (List Char))) :
    (l, v) ∈ groupSet l v gr := by
  induction gr with
  | nil => simp [groupSet]
  | cons p rest ih =>
    rcases p with ⟨k0, ns0⟩
    by_cases h : k0 = l
    · rw [groupSet, if_pos h]
      exact List.mem_cons_self _ _
    · rw [groupSet, if_neg h]
      exact List.mem_cons_of_mem _ ih

theorem mem_groupSet_other (l : ℚ) (v : List (List Char)) {gr : List (ℚ × List (List Char))}
    {k2 : ℚ} {ns2 : List (List Char)} (h : (k2, ns2) ∈ gr) (hne : k2 ≠ l) :
    (k2, ns2) ∈ groupSet l v gr := by
  induction gr with
  | nil => exact absurd h (List.not_mem_nil _)
  | cons p rest ih =>
    rcases p with ⟨k0, ns0⟩
    rcases List.mem_cons.mp h with he | he
    · injection he with h1 h2
      by_cases hk : k0 = l
      · exact absurd (h1 ▸ hk) hne
      · rw [groupSet, if_neg hk]
        exact List.mem_cons.mpr (Or.inl (by rw [h1, h2]))
    · by_cases hk : k0 = l
      · rw [groupSet, if_pos hk]
        exact List.mem_cons_of_mem _ he
      · rw [groupSet, if_neg hk]
        exact List.mem_cons_of_mem _ (ih he)

theorem groupAdd_keys_mem (acc : List (ℚ × List (List Char))) (l : ℚ) (n : List Char)
    (k2 : ℚ) :
    k2 ∈ (groupAdd acc l n).map (fun p => p.1) ↔ k2 ∈ acc.map (fun p => p.1) ∨ k2 = l := by
  induction acc with
  | nil => simp [groupAdd]
  | cons p rest ih =>
    rcases p with ⟨k0, ns0⟩
    by_cases h : k0 = l
    · rw [groupAdd, if_pos h]
      simp only [List.map_cons, List.mem_cons]
      constructor
      · rintro (rfl | hm)
        · exact Or.inl (Or.inl rfl)
        · exact Or.inl (Or.inr hm)
      · rintro ((rfl | hm) | rfl)
        · exact Or.inl rfl
        · exact Or.inr hm
        · exact Or.inl h.symm
    · rw [groupAdd, if_neg h]
      simp only [List.map_cons, List.mem_cons, ih]
      tauto

theorem groupAdd_keys_nodup (acc : List (ℚ × List (List Char))) (l : ℚ) (n : List Char)
    (h : (acc.map (fun p => p.1)).Nodup) : ((groupAdd acc l n).map (fun p => p.1)).Nodup := by
  induction acc with
  | nil => simp [groupAdd]
  | cons p rest ih =>
    rcases p with ⟨k0, ns0⟩
    rw [List.map_cons] at h
    rcases List.nodup_cons.mp h with ⟨hk0, hrest⟩
    by_cases hk : k0 = l
    · rw [groupAdd, if_pos hk, List.map_cons, List.nodup_cons]
      exact ⟨hk0, hrest⟩
    · rw [groupAdd, if_neg hk, List.map_cons, List.nodup_cons]
      refine ⟨?_, ih hrest⟩
      intro hm
      rcases (groupAdd_keys_mem rest l n k0).mp hm with h1 | h1
      · exact hk0 h1
      · exact hk h1

theorem levelGroups_keys_nodup (lv : List (List Char × ℚ)) :
    ((levelGroups lv).map (fun p => p.1)).Nodup := by
  have hgo : ∀ (entries : List (List Char × ℚ)) (acc : List (ℚ × List (List Char))),
      (acc.map (fun p => p.1)).Nodup →
      (((entries.foldl (fun acc p => groupAdd acc p.2 p.1) acc)).map (fun p => p.1)).Nodup := by
    intro entries
    induction entries with
    | nil => intro acc h; exact h
    | cons e rest ih =>
      intro acc h
      exact ih _ (groupAdd_keys_nodup acc e.2 e.1 h)
  exact hgo lv [] (by simp)

theorem levelGroups_keys_sub (lv : List (List Char × ℚ)) (k : ℚ)
    (h : k ∈ (levelGroups lv).map (fun p => p.1)) : ∃ m, (m, k) ∈ lv := by
  have hgo : ∀ (entries : List (List Char × ℚ)) (acc : List (ℚ × List (List Char))),
      k ∈ ((entries.foldl (fun acc p => groupAdd acc p.2 p.1) acc)).map (fun p => p.1) →
      k ∈ acc.map (fun p => p.1) ∨ ∃ m, (m, k) ∈ entries := by
    intro entries
    induction entries with
    | nil => intro acc h2; exact Or.inl h2
    | cons e rest ih =>
      intro acc h2
      rw [List.foldl_cons] at h2
      rcases ih _ h2 with h3 | ⟨m, h3⟩
      · rcases (groupAdd_keys_mem acc e.2 e.1 k).mp h3 with h4 | h4
        · exact Or.inl h4
        · exact Or.inr ⟨e.1, by rw [h4]; exact List.mem_cons_self _ _⟩
      · exact Or.inr ⟨m, List.mem_cons_of_mem _ h3⟩
  rcases hgo lv [] h with h2 | h2
  · simp at h2
  · exact h2

theorem int_ne_int_add_half (z w : ℤ) : (z : ℚ) ≠ (w : ℚ) + 1/2 := by
  intro h
  have h2 : ((2 * z : ℤ) : ℚ) = ((2 * w + 1 : ℤ) : ℚ) := by
    push_cast
    linarith
  have h3 := Int.cast_injective (α := ℚ) h2
  omega

theorem crowdStep_props (g : Graph) (st : List (List Char × ℚ) × List (ℚ × List (List Char)))
    (level : ℚ) (K2 : List ℚ)
    (hnodup : (st.2.map (fun p => p.1)).Nodup)
    (hok : CrowdKeysOk (level :: K2) st.2)
    (hlevint : ∃ z : ℤ, level = (z : ℚ))
    (hlevnot : level ∉ K2) :
    ((crowdStep g st level).2.map (fun p => p.1)).Nodup ∧
    CrowdKeysOk K2 (crowdStep g st level).2 ∧
    (∀ n, n ∈ groupsUnion st.2 → n ∈ groupsUnion (crowdStep g st level).2) := by
  obtain ⟨zl, rfl⟩ := hlevint
  have hweaken : CrowdKeysOk K2 st.2 := by
    intro k hk
    rcases hok k hk with h1 | ⟨z, h1, h2⟩
    · exact Or.inl h1
    · exact Or.inr ⟨z, h1, fun hm => h2 (List.mem_cons_of_mem _ hm)⟩
  have hfresh : ((zl : ℚ) + 1/2) ∉ st.2.map (fun p => p.1) := by
    intro hmem
    rcases hok _ hmem with ⟨z, h1⟩ | ⟨z, h1, h2⟩
    · exact int_ne_int_add_half z zl h1.symm
    · have hz : (z : ℚ) = (zl : ℚ) := by linarith
      exact h2 (by rw [hz]; exact List.mem_cons_self _ _)
  have hhalfne : ((zl : ℚ)) ≠ (zl : ℚ) + 1/2 := by
    intro hh
    have : (0 : ℚ) = 1/2 := by linarith
    norm_num at this
  unfold crowdStep
  by_cases hlen : 8 < (groupGet st.2 (zl : ℚ)).length
  · rw [if_pos hlen]
    have hsplit : ∀ n ∈ groupGet st.2 (zl : ℚ),
        n ∈ crowdImportantOf g st.2 (zl : ℚ) ∨ n ∈ crowdRegularOf g st.2 (zl : ℚ) := by
      intro n hn
      by_cases hi : n ∈ crowdImportantOf g st.2 (zl : ℚ)
      · exact Or.inl hi
      · refine Or.inr (List.mem_filter.mpr ⟨hn, ?_⟩)
        exact decide_eq_true hi
    have hmemset : ∀ n, n ∈ groupsUnion st.2 →
        (n ∈ groupGet st.2 (zl : ℚ)) ∨
        ∃ k ns, (k, ns) ∈ st.2 ∧ n ∈ ns ∧ k ≠ (zl : ℚ) := by
      intro n hn
      rcases mem_groupsUnion.mp hn with ⟨⟨k, ns⟩, hp, hm⟩
      by_cases hk : k = (zl : ℚ)
      · subst hk
        rw [groupGet_of_mem_nodup hnodup hp] at *
        exact Or.inl hm
      · exact Or.inr ⟨k, ns, hp, hm, hk⟩
    by_cases hreg : crowdRegularOf g st.2 (zl : ℚ) ≠ []
    · rw [if_pos hreg]
      refine ⟨?_, ?_, ?_⟩
      · exact groupSet_keys_nodup _ _ _ (groupSet_keys_nodup _ _ _ hnodup)
      · intro k hk
        rcases (groupSet_keys_mem _ _ _ k).mp hk with hk2 | hk2
        · rcases (groupSet_keys_mem _ _ _ k).mp hk2 with hk3 | hk3
          · exact hweaken k hk3
          · exact Or.inl ⟨zl, hk3⟩
        · exact Or.inr ⟨zl, hk2, hlevnot⟩
      · intro n hn
        rcases hmemset n hn with hm | ⟨k, ns, hp, hm, hk⟩
        · rcases hsplit n hm with hi | hr
          · refine mem_groupsUnion.mpr ⟨((zl : ℚ), crowdImportantOf g st.2 (zl : ℚ)), ?_, hi⟩
            exact mem_groupSet_other _ _ (mem_groupSet_self _ _ _) hhalfne
          · exact mem_groupsUnion.mpr ⟨((zl : ℚ) + 1/2, crowdRegularOf g st.2 (zl : ℚ)),
              mem_groupSet_self _ _ _, hr⟩
        · have hkh : k ≠ (zl : ℚ) + 1/2 := by
            intro hh
            exact hfresh (hh ▸ List.mem_map_of_mem (fun p => p.1) hp)
          exact mem_groupsUnion.mpr ⟨(k, ns),
            mem_groupSet_other _ _ (mem_groupSet_other _ _ hp hk) hkh, hm⟩
    · rw [if_neg hreg]
      push_neg at hreg
      refine ⟨?_, ?_, ?_⟩
      · exact groupSet_keys_nodup _ _ _ hnodup
      · intro k hk
        rcases (groupSet_keys_mem _ _ _ k).mp hk with hk2 | hk2
        · exact hweaken k hk2
        · exact Or.inl ⟨zl, hk2⟩
      · intro n hn
        rcases hmemset n hn with hm | ⟨k, ns, hp, hm, hk⟩
        · rcases hsplit n hm with hi | hr
          · exact mem_groupsUnion.mpr ⟨((zl : ℚ), crowdImportantOf g st.2 (zl : ℚ)),
              mem_groupSet_self _ _ _, hi⟩
          · rw [hreg] at hr
            exact absurd hr (List.not_mem_nil n)
        · exact mem_groupsUnion.mpr ⟨(k, ns), mem_groupSet_other _ _ hp hk, hm⟩
  · rw [if_neg hlen]
    exact ⟨hnodup, hweaken, fun n hn => hn⟩

theorem crowdFold_props (g : Graph) :
    ∀ (K : List ℚ) (st : List (List Char × ℚ) × List (ℚ × List (List Char))),
      (st.2.map (fun p => p.1)).Nodup → CrowdKeysOk K st.2 → K.Nodup →
      (∀ k ∈ K, ∃ z : ℤ, k = (z : ℚ)) →
      ((K.foldl (crowdStep g) st).2.map (fun p => p.1)).Nodup ∧
      (∀ n, n ∈ groupsUnion st.2 → n ∈ groupsUnion ((K.foldl (crowdStep g) st).2)) := by
  intro K
  induction K with
  | nil => intro st h1 _ _ _; exact ⟨h1, fun n hn => hn⟩
  | cons level K2 ih =>
    intro st h1 h2 h3 h4
    rcases List.nodup_cons.mp h3 with ⟨hlnot, hK2⟩
    have hstep := crowdStep_props g st level K2 h1 h2
      (h4 level (List.mem_cons_self _ _)) hlnot
    rw [List.foldl_cons]
    have hrest := ih (crowdStep g st level) hstep.1 hstep.2.1 hK2
      (fun k hk => h4 k (List.mem_cons_of_mem _ hk))
    exact ⟨hrest.1, fun n hn => hrest.2 n (hstep.2.2 n hn)⟩

theorem groupsLayout_props (g : Graph) :
    ((groupsLayout g).map (fun p => p.1)).Nodup ∧
    (∀ n, n ∈ groupsUnion (levelGroups (levelsQ g)) → n ∈ groupsUnion (groupsLayout g)) := by
  have hkeys0 : ((levelGroups (levelsQ g)).map (fun p => p.1)).Nodup :=
    levelGroups_keys_nodup _
  have hints : ∀ k ∈ (levelGroups (levelsQ g)).map (fun p => p.1), ∃ z : ℤ, k = (z : ℚ) := by
    intro k hk
    rcases levelGroups_keys_sub _ k hk with ⟨m, hm⟩
    rcases List.mem_map.mp hm with ⟨p, _, hpe⟩
    exact ⟨p.2, (congrArg Prod.snd hpe).symm⟩
  have hK : ∀ k ∈ sortAscBy (fun a b => decide (a < b))
      ((levelGroups (levelsQ g)).map (fun p => p.1)), ∃ z : ℤ, k = (z : ℚ) := by
    intro k hk
    exact hints k ((mem_sortAscBy _ _ _).mp hk)
  have hKnodup : (sortAscBy (fun a b => decide (a < b))
      ((levelGroups (levelsQ g)).map (fun p => p.1))).Nodup :=
    ((sortAscBy_perm _ _).nodup_iff).mpr hkeys0
  have hok : CrowdKeysOk (sortAscBy (fun a b => decide (a < b))
      ((levelGroups (levelsQ g)).map (fun p => p.1))) (levelGroups (levelsQ g)) := by
    intro k hk
    exact Or.inl (hints k hk)
  have h := crowdFold_props g _ (levelsQ g, levelGroups (levelsQ g)) hkeys0 hok hKnodup hK
  exact h

theorem mem_enumFrom_of_mem {α : Type} {x : α} :
    ∀ (k : Nat) {l : List α}, x ∈ l → ∃ i, (i, x) ∈ l.enumFrom k := by
  intro k l
  induction l generalizing k with
  | nil => intro h; exact absurd h (List.not_mem_nil x)
  | cons y rest ih =>
    intro h
    rcases List.mem_cons.mp h with rfl | h2
    · exact ⟨k, List.mem_cons_self _ _⟩
    · rcases ih (k + 1) h2 with ⟨i, hi⟩
      exact ⟨i, List.mem_cons_of_mem _ hi⟩

theorem mem_enum_of_mem {α : Type} {x : α} {l : List α} (h : x ∈ l) :
    ∃ i, (i, x) ∈ l.enum :=
  mem_enumFrom_of_mem 0 h

theorem placeLevel_covers (g : Graph) (gr : List (ℚ × List (List Char))) (level : ℚ)
    (n : List Char) (h : n ∈ groupGet gr level) :
    ∃ p, p ∈ placeLevel g gr level ∧ p.1 = n := by
  have hs : n ∈ sortAscBy (fun a b => lt5 (levelNodeKey g a) (levelNodeKey g b))
      (groupGet gr level) := (mem_sortAscBy _ _ _).mpr h
  rcases mem_enum_of_mem hs with ⟨i, hi⟩
  exact ⟨_, List.mem_map_of_mem _ hi, rfl⟩

theorem foldl_append_mem {β : Type} (f : ℚ → List β) (K : List ℚ) (e : β) :
    ∀ acc, (e ∈ acc ∨ ∃ k ∈ K, e ∈ f k) →
      e ∈ K.foldl (fun acc k => acc ++ f k) acc := by
  induction K with
  | nil =>
    intro acc h
    rcases h with h | ⟨k, hk, _⟩
    · exact h
    · exact absurd hk (List.not_mem_nil k)
  | cons k0 rest ih =>
    intro acc h
    rw [List.foldl_cons]
    apply ih
    rcases h with h | ⟨k, hk, he⟩
    · exact Or.inl (List.mem_append.mpr (Or.inl h))
    · rcases List.mem_cons.mp hk with rfl | hk2
      · exact Or.inl (List.mem_append.mpr (Or.inr he))
      · exact Or.inr ⟨k, hk2, he⟩

theorem connectedPositions_covers (g : Graph) (n : List Char)
    (hmem : n ∈ groupsUnion (groupsLayout g)) :
    ∃ p, p ∈ connectedPositions g ∧ p.1 = n := by
  rcases mem_groupsUnion.mp hmem with ⟨⟨k, ns⟩, hp, hm⟩
  have hget : groupGet (groupsLayout g) k = ns :=
    groupGet_of_mem_nodup (groupsLayout_props g).1 hp
  rcases placeLevel_covers g (groupsLayout g) k n (by rw [hget]; exact hm) with ⟨q, hq, hq1⟩
  refine ⟨q, ?_, hq1⟩
  unfold connectedPositions
  apply foldl_append_mem
  refine Or.inr ⟨k, ?_, hq⟩
  exact (mem_sortAscBy _ _ _).mpr (List.mem_map_of_mem (fun p => p.1) hp)

theorem isolatedPositions_covers (g : Graph) (n : List Char) (h : n ∈ isolatedNodes g) :
    ∃ p, p ∈ isolatedPositions g ∧ p.1 = n := by
  have hne : isolatedNodes g ≠ [] := by
    intro hh
    rw [hh] at h
    exact List.not_mem_nil n h
  have hs : n ∈ sortAscBy (fun a b =>
      ltIso (getIsolatedNodePriority (labelOf g a)) (getIsolatedNodePriority (labelOf g b)))
      (isolatedNodes g) := (mem_sortAscBy _ _ _).mpr h
  rcases mem_enum_of_mem hs with ⟨i, hi⟩
  simp only [isolatedPositions]
  rw [if_neg hne]
  exact ⟨_, List.mem_map_of_mem _ hi, rfl⟩

theorem nodeKeys_split (g : Graph) (n : List Char) (h : n ∈ nodeKeys g) :
    n ∈ connKeys g ∨ n ∈ isolatedNodes g := by
  rcases List.mem_map.mp h with ⟨p, hp, rfl⟩
  by_cases hcond : incoming g p.1 = [] ∧ outgoing g p.1 = []
  · refine Or.inr ?_
    unfold isolatedNodes
    exact List.mem_map.mpr ⟨p, List.mem_filter.mpr ⟨hp, by simp [hcond.1, hcond.2]⟩, rfl⟩
  · refine Or.inl ?_
    unfold connKeys connectedNodes
    exact List.mem_map.mpr ⟨p, List.mem_filter.mpr
      ⟨hp, by simp only [decide_eq_true_eq]; exact hcond⟩, rfl⟩

/-- C10: the layout computation assigns a position and a box size to every
node of the graph, connected or isolated: after BFS, refinement, fallback and
crowding, the positions list and the sizes list each contain an entry for
every node id, so the emitter's per-node lookups never fail. -/
theorem C10_layout_total (g : Graph) (n : List Char) (hn : n ∈ nodeKeys g) :
    (∃ x y, (n, x, y) ∈ positionsOf g) ∧ (∃ w h2, (n, (w, h2)) ∈ nodeSizes g) := by
  constructor
  · rcases nodeKeys_split g n hn with hc | hi
    · -- connected: ranked by the fallback pass, grouped, crowd-preserved, placed
      have hsome := levelsAfterFallback_total g n hc
      rcases ho : alGet n (levelsAfterFallback g) with _ | v
      · rw [ho] at hsome
        exact absurd hsome (by simp)
      · have hentry : (n, v) ∈ levelsAfterFallback g := alGet_mem ho
        have hq : (n, (v : ℚ)) ∈ levelsQ g := by
          unfold levelsQ
          exact List.mem_map.mpr ⟨(n, v), hentry, rfl⟩
        have hu0 := mem_union_levelGroups (levelsQ g) n (v : ℚ) hq
        have huF := (groupsLayout_props g).2 n hu0
        rcases connectedPositions_covers g n huF with ⟨p, hp, hp1⟩
        subst hp1
        exact ⟨p.2.1, p.2.2, List.mem_append.mpr (Or.inl hp)⟩
    · rcases isolatedPositions_covers g n hi with ⟨p, hp, hp1⟩
      subst hp1
      exact ⟨p.2.1, p.2.2, List.mem_append.mpr (Or.inr hp)⟩
  · rcases List.mem_map.mp hn with ⟨p, hp, rfl⟩
    unfold nodeSizes
    exact ⟨_, _, List.mem_map.mpr ⟨p, hp, rfl⟩⟩

/-- C10 (witness): the totality theorem applied to a node of the diamond
graph. -/
theorem C10_layout_total_witness :
    (∃ x y, (sl ("a"), x, y) ∈ positionsOf gDiamond) ∧
    (∃ w h2, (sl ("a"), (w, h2)) ∈ nodeSizes gDiamond) :=
  C10_layout_total gDiamond (sl ("a")) (by decide)

theorem le_foldl_max (l : List ℤ) : ∀ b : ℤ, b ≤ l.foldl max b := by
  induction l with
  | nil => intro b; exact le_refl b
  | cons x rest ih =>
    intro b
    exact le_trans (le_max_left b x) (ih (max b x))

theorem mem_le_foldl_max (l : List ℤ) : ∀ (b x : ℤ), x ∈ l → x ≤ l.foldl max b := by
  induction l with
  | nil => intro b x hx; exact absurd hx (List.not_mem_nil x)
  | cons y rest ih =>
    intro b x hx
    rcases List.mem_cons.mp hx with rfl | hx2
    · exact le_trans (le_max_right b x) (le_foldl_max rest (max b x))
    · exact ih (max b y) x hx2

theorem le_listMaxD {x : ℤ} {l : List ℤ} (d : ℤ) (h : x ∈ l) : x ≤ listMaxD l d := by
  cases l with
  | nil => exact absurd h (List.not_mem_nil x)
  | cons y rest =>
    rcases List.mem_cons.mp h with rfl | h2
    · exact le_foldl_max rest x
    · exact mem_le_foldl_max rest y x h2

theorem le_foldl_max_of {β : Type} (f : β → ℤ) (l : List β) :
    ∀ b : ℤ, b ≤ l.foldl (fun m p => max m (f p)) b := by
  induction l with
  | nil => intro b; exact le_refl b
  | cons x rest ih =>
    intro b
    exact le_trans (le_max_left b (f x)) (ih (max b (f x)))

theorem maxNodeW_nonneg (g : Graph) : 0 ≤ maxNodeW g := by
  unfold maxNodeW
  exact le_foldl_max_of (fun p => p.2.1) (nodeSizes g) 0

theorem isolated_not_conn (g : Graph) (n : List Char) (h : n ∈ isolatedNodes g) :
    n ∉ connKeys g := by
  intro hc
  rcases List.mem_map.mp h with ⟨p, hp, rfl⟩
  have hpred := (List.mem_filter.mp hp).2
  rcases List.mem_map.mp hc with ⟨p2, hp2, hpp⟩
  have hpred2 := (List.mem_filter.mp hp2).2
  simp only [decide_eq_true_eq] at hpred hpred2
  rw [hpp] at hpred2
  exact hpred2 hpred

theorem rootsOf_conn (g : Graph) : ∀ r ∈ rootsOf g, r ∈ connKeys g := by
  intro r hr
  simp only [rootsOf] at hr
  split at hr
  · rcases List.mem_map.mp hr with ⟨p, hp, rfl⟩
    exact List.mem_map_of_mem _ (List.mem_filter.mp hp).1
  · split at hr
    · rcases List.mem_map.mp hr with ⟨c, hc, rfl⟩
      have hc2 := (mem_sortDescBy _ c _).mp (List.take_subset _ _ hc)
      rcases List.mem_map.mp hc2 with ⟨p, hp, hpc⟩
      rw [← hpc]
      exact List.mem_map_of_mem _ hp
    · rcases List.mem_map.mp hr with ⟨p, hp, rfl⟩
      have hp2 := (mem_sortDescBy _ p _).mp (List.take_subset _ _ hp)
      exact List.mem_map_of_mem _ hp2

theorem bfsRun_conn (g : Graph) (fuel : Nat) :
    ∀ st : BfsState, (∀ e ∈ st.queue, e.1 ∈ connKeys g) →
      (∀ e ∈ st.levels, e.1 ∈ connKeys g) →
      ∀ e ∈ (bfsRun g fuel st).levels, e.1 ∈ connKeys g := by
  induction fuel with
  | zero => intro st hq hl; exact hl
  | succ f ih =>
    rintro ⟨queue, visited, levels⟩ hq hl
    dsimp only at hq hl
    rcases queue with _ | ⟨⟨node, level⟩, qrest⟩
    · rw [bfsRun]; exact hl
    · rw [bfsRun]
      by_cases hvis : node ∈ visited
      · rw [if_pos hvis]
        exact ih _ (fun q hm => hq q (List.mem_cons_of_mem _ hm)) hl
      · rw [if_neg hvis]
        refine ih _ ?_ ?_
        · intro q hm
          rcases List.mem_append.mp hm with hm1 | hm2
          · exact hq q (List.mem_cons_of_mem _ hm1)
          · rcases List.mem_map.mp hm2 with ⟨c, hc1, hc2⟩
            have hfc := (List.mem_filter.mp hc1).2
            simp only [Bool.and_eq_true, decide_eq_true_eq] at hfc
            rw [← hc2]
            exact hfc.2
        · intro e he
          rcases mem_alSet he with he1 | he2
          · rw [he1]
            exact hq (node, level) (List.mem_cons_self _ _)
          · exact hl e he2

theorem bfsLevels_keys (g : Graph) : ∀ e ∈ bfsLevels g, e.1 ∈ connKeys g := by
  apply bfsRun_conn
  · intro e he
    rcases List.mem_map.mp he with ⟨r, hr, rfl⟩
    exact rootsOf_conn g r hr
  · intro e he
    exact absurd he (List.not_mem_nil e)

theorem groupNodes_conn (g : Graph) (grp : FuncGroup) :
    ∀ n ∈ groupNodes g grp, n ∈ connKeys g := by
  intro n hn
  rcases List.mem_map.mp hn with ⟨p, hp, rfl⟩
  exact List.mem_map_of_mem _ (List.mem_filter.mp hp).1

theorem fold_keys_sub {α : Type} (P : List Char → Prop)
    (step : List (List Char × α) → List Char → List (List Char × α))
    (hstep : ∀ lv n e, P n → (∀ e2 ∈ lv, P e2.1) → e ∈ step lv n → P e.1) :
    ∀ (nodes : List (List Char)) (lv0 : List (List Char × α)),
      (∀ n ∈ nodes, P n) → (∀ e ∈ lv0, P e.1) →
      ∀ e ∈ nodes.foldl step lv0, P e.1 := by
  intro nodes
  induction nodes with
  | nil => intro lv0 _ h0 e he; exact h0 e he
  | cons n rest ih =>
    intro lv0 hn h0 e he
    refine ih (step lv0 n) (fun m hm => hn m (List.mem_cons_of_mem _ hm)) ?_ e he
    intro e2 he2
    exact hstep lv0 n e2 (hn n (List.mem_cons_self _ _)) h0 he2

theorem refineErr_keys (g : Graph) (lv : List (List Char × ℤ))
    (hlv : ∀ e ∈ lv, e.1 ∈ connKeys g) :
    ∀ e ∈ refineErr g lv, e.1 ∈ connKeys g := by
  simp only [refineErr]
  split
  · refine fold_keys_sub _ _ ?_ _ _ (fun n hn => groupNodes_conn g _ n hn) hlv
    intro lv2 n e hPn h0 he
    split at he
    · split at he
      · rcases mem_alSet he with he1 | he2
        · rw [he1]; exact hPn
        · exact h0 e he2
      · exact h0 e he
    · exact h0 e he
  · exact hlv

theorem refineCleanup_keys (g : Graph) (lv : List (List Char × ℤ))
    (hlv : ∀ e ∈ lv, e.1 ∈ connKeys g) :
    ∀ e ∈ refineCleanup g lv, e.1 ∈ connKeys g := by
  simp only [refineCleanup]
  split
  · refine fold_keys_sub _ _ ?_ _ _ (fun n hn => groupNodes_conn g _ n hn) hlv
    intro lv2 n e hPn h0 he
    unfold cleanupStep at he
    split at he
    · split at he
      · rcases mem_alSet he with he1 | he2
        · rw [he1]; exact hPn
        · exact h0 e he2
      · exact h0 e he
    · exact h0 e he
  · exact hlv

theorem fallbackLevels_keys (g : Graph) (lv : List (List Char × ℤ))
    (hlv : ∀ e ∈ lv, e.1 ∈ connKeys g) :
    ∀ e ∈ fallbackLevels g lv, e.1 ∈ connKeys g := by
  unfold fallbackLevels
  refine fold_keys_sub _ _ ?_ _ _ (fun n hn => hn) hlv
  intro lv2 n e hPn h0 he
  split at he
  · exact h0 e he
  · split at he
    · rcases mem_alSet he with he1 | he2
      · rw [he1]; exact hPn
      · exact h0 e he2
    · rcases mem_alSet he with he1 | he2
      · rw [he1]; exact hPn
      · exact h0 e he2

theorem levelsAfterFallback_keys (g : Graph) :
    ∀ e ∈ levelsAfterFallback g, e.1 ∈ connKeys g :=
  fallbackLevels_keys g _ (refineCleanup_keys g _ (refineErr_keys g _ (bfsLevels_keys g)))

theorem levelsQ_keys (g : Graph) : ∀ e ∈ levelsQ g, e.1 ∈ connKeys g := by
  intro e he
  rcases List.mem_map.mp he with ⟨p, hp, rfl⟩
  exact levelsAfterFallback_keys g p hp

theorem mem_groupGet_union {gr : List (ℚ × List (List Char))} {l : ℚ} {n : List Char}
    (h : n ∈ groupGet gr l) : n ∈ groupsUnion gr := by
  unfold groupGet at h
  split at h
  · rename_i p heq
    exact mem_groupsUnion.mpr ⟨p, List.mem_of_find?_eq_some heq, h⟩
  · exact absurd h (List.not_mem_nil n)

theorem mem_of_mem_groupSet {l : ℚ} {v : List (List Char)} {p : ℚ × List (List Char)} :
    ∀ {gr : List (ℚ × List (List Char))}, p ∈ groupSet l v gr → p = (l, v) ∨ p ∈ gr := by
  intro gr
  induction gr with
  | nil => intro h; simpa [groupSet] using h
  | cons q rest ih =>
    obtain ⟨k, ns⟩ := q
    intro h
    rw [groupSet] at h
    split at h
    · rcases List.mem_cons.mp h with h1 | h2
      · exact Or.inl h1
      · exact Or.inr (List.mem_cons_of_mem _ h2)
    · rcases List.mem_cons.mp h with h1 | h2
      · exact Or.inr (by rw [h1]; exact List.mem_cons_self _ _)
      · rcases ih h2 with h3 | h4
        · exact Or.inl h3
        · exact Or.inr (List.mem_cons_of_mem _ h4)

theorem groupsUnion_groupSet_sub {l : ℚ} {v : List (List Char)} {n : List Char}
    {gr : List (ℚ × List (List Char))} (h : n ∈ groupsUnion (groupSet l v gr)) :
    n ∈ v ∨ n ∈ groupsUnion gr := by
  rcases mem_groupsUnion.mp h with ⟨p, hp, hnp⟩
  rcases mem_of_mem_groupSet hp with h1 | h2
  · rw [h1] at hnp
    exact Or.inl hnp
  · exact Or.inr (mem_groupsUnion.mpr ⟨p, h2, hnp⟩)

theorem groupsUnion_groupAdd_sub {m : List Char} {lq : ℚ} {n : List Char} :
    ∀ {acc : List (ℚ × List (List Char))},
      n ∈ groupsUnion (groupAdd acc lq m) → n ∈ groupsUnion acc ∨ n = m := by
  intro acc
  induction acc with
  | nil =>
    intro h
    simp [groupAdd, groupsUnion] at h
    exact Or.inr h
  | cons q rest ih =>
    obtain ⟨k, ns⟩ := q
    intro h
    rw [groupAdd] at h
    split at h
    · rcases mem_groupsUnion.mp h with ⟨p, hp, hnp⟩
      rcases List.mem_cons.mp hp with h1 | h2
      · rw [h1] at hnp
        rcases List.mem_append.mp hnp with h3 | h4
        · exact Or.inl (mem_groupsUnion.mpr ⟨(k, ns), List.mem_cons_self _ _, h3⟩)
        · exact Or.inr (by simpa using h4)
      · exact Or.inl (mem_groupsUnion.mpr ⟨p, List.mem_cons_of_mem _ h2, hnp⟩)
    · rcases mem_groupsUnion.mp h with ⟨p, hp, hnp⟩
      rcases List.mem_cons.mp hp with h1 | h2
      · refine Or.inl (mem_groupsUnion.mpr ⟨(k, ns), List.mem_cons_self _ _, ?_⟩)
        rw [← h1]
        exact hnp
      · rcases ih (mem_groupsUnion.mpr ⟨p, h2, hnp⟩) with h3 | h4
        · rcases mem_groupsUnion.mp h3 with ⟨p2, hp2, hnp2⟩
          exact Or.inl (mem_groupsUnion.mpr ⟨p2, List.mem_cons_of_mem _ hp2, hnp2⟩)
        · exact Or.inr h4

theorem groupsUnion_levelGroups_sub (levels : List (List Char × ℚ)) :
    ∀ (acc : List (ℚ × List (List Char))) (n : List Char),
      n ∈ groupsUnion (levels.foldl (fun acc p => groupAdd acc p.2 p.1) acc) →
      n ∈ groupsUnion acc ∨ ∃ e ∈ levels, e.1 = n := by
  induction levels with
  | nil => intro acc n h; exact Or.inl h
  | cons p rest ih =>
    intro acc n h
    rw [List.foldl_cons] at h
    rcases ih _ n h with h1 | h2
    · rcases groupsUnion_groupAdd_sub h1 with h3 | h4
      · exact Or.inl h3
      · exact Or.inr ⟨p, List.mem_cons_self _ _, h4.symm⟩
    · rcases h2 with ⟨e, he, hen⟩
      exact Or.inr ⟨e, List.mem_cons_of_mem _ he, hen⟩

theorem crowdStep_conn (g : Graph) (P : List Char → Prop)
    (st : List (List Char × ℚ) × List (ℚ × List (List Char))) (level : ℚ)
    (h1 : ∀ e ∈ st.1, P e.1) (h2 : ∀ n ∈ groupsUnion st.2, P n) :
    (∀ e ∈ (crowdStep g st level).1, P e.1) ∧
      (∀ n ∈ groupsUnion (crowdStep g st level).2, P n) := by
  have hreg : ∀ n ∈ crowdRegularOf g st.2 level, P n := by
    intro n hn
    exact h2 n (mem_groupGet_union (List.mem_filter.mp hn).1)
  have himp : ∀ n ∈ crowdImportantOf g st.2 level, P n := by
    intro n hn
    exact h2 n (mem_groupGet_union (List.mem_filter.mp hn).1)
  unfold crowdStep
  split
  · split
    · constructor
      · intro e he
        refine fold_keys_sub P _ ?_ _ _ hreg h1 e he
        intro lv2 n2 e2 hPn h0 he2
        rcases mem_alSet he2 with heq | hm
        · rw [heq]; exact hPn
        · exact h0 e2 hm
      · intro n hn
        rcases groupsUnion_groupSet_sub hn with hn1 | hn2
        · exact hreg n hn1
        · rcases groupsUnion_groupSet_sub hn2 with hn3 | hn4
          · exact himp n hn3
          · exact h2 n hn4
    · refine ⟨h1, ?_⟩
      intro n hn
      rcases groupsUnion_groupSet_sub hn with hn1 | hn2
      · exact himp n hn1
      · exact h2 n hn2
  · exact ⟨h1, h2⟩

theorem crowdFold_conn (g : Graph) (P : List Char → Prop) (keys : List ℚ) :
    ∀ st, (∀ e ∈ st.1, P e.1) → (∀ n ∈ groupsUnion st.2, P n) →
      (∀ e ∈ (keys.foldl (crowdStep g) st).1, P e.1) ∧
        (∀ n ∈ groupsUnion (keys.foldl (crowdStep g) st).2, P n) := by
  induction keys with
  | nil => intro st h1 h2; exact ⟨h1, h2⟩
  | cons k rest ih =>
    intro st h1 h2
    rw [List.foldl_cons]
    rcases crowdStep_conn g P st k h1 h2 with ⟨h3, h4⟩
    exact ih _ h3 h4

theorem crowdRes_conn (g : Graph) :
    (∀ e ∈ (crowdRes g).1, e.1 ∈ connKeys g) ∧
      (∀ n ∈ groupsUnion (crowdRes g).2, n ∈ connKeys g) := by
  simp only [crowdRes]
  apply crowdFold_conn
  · exact fun e he => levelsQ_keys g e he
  · intro n hn
    have hn2 : n ∈ groupsUnion ((levelsQ g).foldl (fun acc p => groupAdd acc p.2 p.1) []) := hn
    rcases groupsUnion_levelGroups_sub (levelsQ g) [] n hn2 with h1 | ⟨e, he, hen⟩
    · exact absurd h1 (by simp [groupsUnion])
    · rw [← hen]
      exact levelsQ_keys g e he

theorem isolated_no_rank (g : Graph) (n : List Char) (h : n ∈ isolatedNodes g) :
    alGet n (levelsLayout g) = none := by
  rcases ho : alGet n (levelsLayout g) with _ | v
  · rfl
  · have hmem : (n, v) ∈ (crowdRes g).1 := alGet_mem ho
    exact absurd ((crowdRes_conn g).1 (n, v) hmem) (isolated_not_conn g n h)

theorem foldl_append_mem_inv {β : Type} (f : ℚ → List β) (K : List ℚ) (e : β) :
    ∀ acc, e ∈ K.foldl (fun acc k => acc ++ f k) acc →
      e ∈ acc ∨ ∃ k ∈ K, e ∈ f k := by
  induction K with
  | nil => intro acc h; exact Or.inl h
  | cons k0 rest ih =>
    intro acc h
    rw [List.foldl_cons] at h
    rcases ih _ h with h1 | ⟨k, hk, he⟩
    · rcases List.mem_append.mp h1 with h2 | h3
      · exact Or.inl h2
      · exact Or.inr ⟨k0, List.mem_cons_self _ _, h3⟩
    · exact Or.inr ⟨k, List.mem_cons_of_mem _ hk, he⟩

theorem snd_mem_of_mem_enumFrom {α : Type} {x : α} {i : Nat} :
    ∀ (k : Nat) {l : List α}, (i, x) ∈ l.enumFrom k → x ∈ l := by
  intro k l
  induction l generalizing k with
  | nil => intro h; exact absurd h (List.not_mem_nil _)
  | cons y rest ih =>
    intro h
    rcases List.mem_cons.mp h with h1 | h2
    · have : x = y := congrArg Prod.snd h1
      rw [this]
      exact List.mem_cons_self _ _
    · exact List.mem_cons_of_mem _ (ih (k + 1) h2)

theorem fst_lt_of_mem_enumFrom {α : Type} {x : α} {i : Nat} :
    ∀ (k : Nat) {l : List α}, (i, x) ∈ l.enumFrom k → i < k + l.length := by
  intro k l
  induction l generalizing k with
  | nil => intro h; exact absurd h (List.not_mem_nil _)
  | cons y rest ih =>
    intro h
    rcases List.mem_cons.mp h with h1 | h2
    · have : i = k := congrArg Prod.fst h1
      simp [this]
    · have := ih (k + 1) h2
      simp only [List.length_cons]
      omega

theorem connectedPositions_node_conn (g : Graph) (m : List Char) (x : ℤ) (y : ℚ)
    (h : (m, x, y) ∈ connectedPositions g) : m ∈ connKeys g := by
  simp only [connectedPositions] at h
  rcases foldl_append_mem_inv _ _ _ _ h with h1 | ⟨level, _, hp⟩
  · exact absurd h1 (List.not_mem_nil _)
  · simp only [placeLevel] at hp
    rcases List.mem_map.mp hp with ⟨⟨i, node⟩, hienum, heq⟩
    have hnode : node = m := congrArg Prod.fst heq
    have hmem : node ∈ groupGet (groupsLayout g) level :=
      (mem_sortAscBy _ _ _).mp (snd_mem_of_mem_enumFrom 0 hienum)
    rw [← hnode]
    exact (crowdRes_conn g).2 node (mem_groupGet_union hmem)

theorem baseSpacing_ge (g : Graph) : (280 : ℤ) ≤ baseSpacingOf g := by
  unfold baseSpacingOf
  split_ifs
  · exact le_trans (by norm_num) (le_max_left _ _)
  · exact le_trans (by norm_num) (le_max_left _ _)
  · exact le_trans (by norm_num) (le_max_left _ _)
  · exact le_trans (by norm_num) (le_max_left _ _)

theorem mainGraphWidth_ge (g : Graph) :
    maxNodesInLevel g * baseSpacingOf g + 600 ≤ mainGraphWidth g := by
  unfold mainGraphWidth
  split_ifs
  · exact le_max_right _ _
  · exact le_trans (by linarith) (le_max_right _ _)
  · exact le_trans (by linarith) (le_max_right _ _)

theorem groupGet_len_le_max (g : Graph) (level : ℚ) (m : List Char)
    (hm : m ∈ groupGet (groupsLayout g) level) :
    ((groupGet (groupsLayout g) level).length : ℤ) ≤ maxNodesInLevel g := by
  have h2 := hm
  unfold groupGet at h2
  split at h2
  · rename_i p heq
    have hpin : p ∈ groupsLayout g := List.mem_of_find?_eq_some heq
    have hne : groupsLayout g ≠ [] := List.ne_nil_of_mem hpin
    have hgg : groupGet (groupsLayout g) level = p.2 := by
      unfold groupGet
      rw [heq]
    rw [hgg]
    unfold maxNodesInLevel
    rw [if_neg hne]
    exact le_listMaxD 0 (List.mem_map_of_mem _ hpin)
  · exact absurd h2 (List.not_mem_nil m)

theorem totalW_le (B w nl : ℤ) (hB : 280 ≤ B) (hnl : 1 ≤ nl) (hw : nl * B + 600 ≤ w) :
    (nl - 1) * (if 12 < nl then max 280 (w.fdiv (nl + 1))
      else if 8 < nl then max 320 (w.fdiv (nl + 1))
      else if 4 < nl then max (B + 60) (w.fdiv (nl + 1))
      else B + 80) ≤ w - 120 := by
  have hBnl : 1 * B ≤ nl * B := mul_le_mul_of_nonneg_right hnl (by linarith)
  have hwpos : (0 : ℤ) ≤ w := by linarith
  have hdr := Int.fdiv_add_fmod w (nl + 1)
  have hr0 : 0 ≤ w.fmod (nl + 1) := Int.fmod_nonneg hwpos (by linarith)
  set d := w.fdiv (nl + 1) with hd
  set r := w.fmod (nl + 1) with hr
  split_ifs with h12 h8 h4
  · rcases le_total d 280 with hle | hge
    · rw [max_eq_left hle]
      have h1 : nl * 280 ≤ nl * B := mul_le_mul_of_nonneg_left hB (by linarith)
      have h2 : (nl - 1) * 280 = nl * 280 - 280 := by ring
      linarith
    · rw [max_eq_right hge]
      have h2 : (nl - 1) * d = w - r - 2 * d := by linear_combination hdr
      linarith
  · rcases le_total d 320 with hle | hge
    · rw [max_eq_left hle]
      have h1 : nl * 280 ≤ nl * B := mul_le_mul_of_nonneg_left hB (by linarith)
      have h2 : (nl - 1) * 320 = nl * 320 - 320 := by ring
      have h3 : nl ≤ 12 := by omega
      linarith
    · rw [max_eq_right hge]
      have h2 : (nl - 1) * d = w - r - 2 * d := by linear_combination hdr
      linarith
  · rcases le_total d (B + 60) with hle | hge
    · rw [max_eq_left hle]
      have h2 : (nl - 1) * (B + 60) = nl * B - B + 60 * nl - 60 := by ring
      have h3 : nl ≤ 8 := by omega
      linarith
    · rw [max_eq_right hge]
      have h2 : (nl - 1) * d = w - r - 2 * d := by linear_combination hdr
      linarith
  · have h2 : (nl - 1) * (B + 80) = nl * B - B + 80 * nl - 80 := by ring
    have h3 : nl ≤ 4 := by omega
    linarith

theorem spacing_nonneg (B w nl : ℤ) (hB : 280 ≤ B) :
    (0 : ℤ) ≤ (if 12 < nl then max 280 (w.fdiv (nl + 1))
      else if 8 < nl then max 320 (w.fdiv (nl + 1))
      else if 4 < nl then max (B + 60) (w.fdiv (nl + 1))
      else B + 80) := by
  split_ifs
  · exact le_trans (by norm_num) (le_max_left _ _)
  · exact le_trans (by norm_num) (le_max_left _ _)
  · exact le_trans (by linarith) (le_max_left _ _)
  · linarith

theorem layout_x_core (w nl i q x : ℤ)
    (hi0 : 0 ≤ i) (hilt : i < nl) (hq0 : 0 ≤ q)
    (htw : (nl - 1) * q ≤ w - 120)
    (hx : x = max 200 ((w - (nl - 1) * q).fdiv 2) + i * q) :
    x < w + 150 := by
  have hiq : i * q ≤ (nl - 1) * q := mul_le_mul_of_nonneg_right (by omega) hq0
  have htw0 : 0 ≤ (nl - 1) * q := mul_nonneg (by omega) hq0
  have hfd := Int.fdiv_add_fmod (w - (nl - 1) * q) 2
  have hfr0 : 0 ≤ (w - (nl - 1) * q).fmod 2 := Int.fmod_nonneg (by linarith) (by norm_num)
  rcases le_total ((w - (nl - 1) * q).fdiv 2) 200 with hle | hge
  · rw [max_eq_left hle] at hx
    linarith
  · rw [max_eq_right hge] at hx
    linarith

theorem isolatedPositions_x_ge (g : Graph) (m : List Char) (x : ℤ) (y : ℚ)
    (h : (m, x, y) ∈ isolatedPositions g) : mainGraphWidth g + 150 ≤ x := by
  simp only [isolatedPositions] at h
  split at h
  · exact absurd h (List.not_mem_nil _)
  · rcases List.mem_map.mp h with ⟨⟨i, node⟩, hienum, heq⟩
    have hx : mainGraphWidth g +
        (if (isolatedNodes g).length ≤ 6 then (150 : ℤ)
          else if (isolatedNodes g).length ≤ 18 then 180 else 200) +
        ((i : ℤ) % (if (isolatedNodes g).length ≤ 6 then (1 : ℤ)
          else if (isolatedNodes g).length ≤ 18 then 2 else 3)) * (maxNodeW g + 60) = x :=
      congrArg (fun t => t.2.1) heq
    have hcols : (0 : ℤ) < (if (isolatedNodes g).length ≤ 6 then (1 : ℤ)
        else if (isolatedNodes g).length ≤ 18 then 2 else 3) := by
      split_ifs <;> norm_num
    have hmod : 0 ≤ (i : ℤ) % (if (isolatedNodes g).length ≤ 6 then (1 : ℤ)
        else if (isolatedNodes g).length ≤ 18 then 2 else 3) :=
      Int.emod_nonneg _ (ne_of_gt hcols)
    have hgap : (150 : ℤ) ≤ (if (isolatedNodes g).length ≤ 6 then (150 : ℤ)
        else if (isolatedNodes g).length ≤ 18 then 180 else 200) := by
      split_ifs <;> norm_num
    have hsp : (0 : ℤ) ≤ maxNodeW g + 60 := by linarith [maxNodeW_nonneg g]
    have hprod : 0 ≤ ((i : ℤ) % (if (isolatedNodes g).length ≤ 6 then (1 : ℤ)
        else if (isolatedNodes g).length ≤ 18 then 2 else 3)) * (maxNodeW g + 60) :=
      mul_nonneg hmod hsp
    linarith

theorem connectedPositions_x_lt (g : Graph) (m : List Char) (x : ℤ) (y : ℚ)
    (h : (m, x, y) ∈ connectedPositions g) : x < mainGraphWidth g + 150 := by
  simp only [connectedPositions] at h
  rcases foldl_append_mem_inv _ _ _ _ h with h1 | ⟨level, _, hp⟩
  · exact absurd h1 (List.not_mem_nil _)
  · simp only [placeLevel] at hp
    rcases List.mem_map.mp hp with ⟨⟨i, node⟩, hienum, heq⟩
    have hmem : node ∈ groupGet (groupsLayout g) level :=
      (mem_sortAscBy _ _ _).mp (snd_mem_of_mem_enumFrom 0 hienum)
    have hlen : (sortAscBy (fun a b => lt5 (levelNodeKey g a) (levelNodeKey g b))
        (groupGet (groupsLayout g) level)).length =
        (groupGet (groupsLayout g) level).length :=
      (sortAscBy_perm _ _).length_eq
    have hilt := fst_lt_of_mem_enumFrom 0 hienum
    rw [hlen] at hilt
    have hilt2 : i < (groupGet (groupsLayout g) level).length := by omega
    set nl : ℤ := ((groupGet (groupsLayout g) level).length : ℤ) with hnldef
    set w : ℤ := mainGraphWidth g with hwdef
    set B : ℤ := baseSpacingOf g with hBdef
    set spc : ℤ := (if 12 < nl then max 280 (w.fdiv (nl + 1))
      else if 8 < nl then max 320 (w.fdiv (nl + 1))
      else if 4 < nl then max (B + 60) (w.fdiv (nl + 1))
      else B + 80) with hspc
    have hx : max 200 ((w - (nl - 1) * spc).fdiv 2) + (i : ℤ) * spc = x :=
      congrArg (fun t => t.2.1) heq
    have hB : (280 : ℤ) ≤ B := baseSpacing_ge g
    have hnl1 : (1 : ℤ) ≤ nl := by
      rw [hnldef]
      exact_mod_cast List.length_pos.mpr (List.ne_nil_of_mem hmem)
    have hMle : nl ≤ maxNodesInLevel g := groupGet_len_le_max g level node hmem
    have hw1 : maxNodesInLevel g * B + 600 ≤ w := mainGraphWidth_ge g
    have hnlB : nl * B ≤ maxNodesInLevel g * B :=
      mul_le_mul_of_nonneg_right hMle (by linarith)
    have hw2 : nl * B + 600 ≤ w := by linarith
    have htw := totalW_le B w nl hB hnl1 hw2
    rw [← hspc] at htw
    have hq0 : (0 : ℤ) ≤ spc := by
      rw [hspc]
      exact spacing_nonneg B w nl hB
    have hiltZ : (i : ℤ) < nl := by
      rw [hnldef]
      exact_mod_cast hilt2
    exact layout_x_core w nl (i : ℤ) spc x (Int.natCast_nonneg i) hiltZ hq0 htw hx.symm

/-- C9: a node with no incident edges never receives a rank — it is absent
from the final (post-crowding) rank map — and every position the layout
assigns to it lies at least 150 units to the right of the main graph width,
strictly to the right of every position of a ranked (connected) node, so
isolated nodes are never interleaved with ranked ones. -/
theorem C9_isolated_no_rank_side_area (g : Graph) (n : List Char)
    (h : n ∈ isolatedNodes g) :
    alGet n (levelsLayout g) = none ∧
      ∀ x y, (n, x, y) ∈ positionsOf g →
        mainGraphWidth g + 150 ≤ x ∧
          ∀ m x2 y2, (m, x2, y2) ∈ connectedPositions g → x2 < x := by
  refine ⟨isolated_no_rank g n h, ?_⟩
  intro x y hxy
  have hiso : (n, x, y) ∈ isolatedPositions g := by
    rcases List.mem_append.mp hxy with h1 | h2
    · exact absurd (connectedPositions_node_conn g n x y h1) (isolated_not_conn g n h)
    · exact h2
  have hge := isolatedPositions_x_ge g n x y hiso
  refine ⟨hge, ?_⟩
  intro m x2 y2 hm
  exact lt_of_lt_of_le (connectedPositions_x_lt g m x2 y2 hm) hge

/-- C9 (witness): the claim instantiated on the one-edge graph whose node
`c` is isolated. -/
theorem C9_isolated_witness :
    alGet (sl ("c")) (levelsLayout gIso) = none ∧
      ∀ x y, (sl ("c"), x, y) ∈ positionsOf gIso →
        mainGraphWidth gIso + 150 ≤ x ∧
          ∀ m x2 y2, (m, x2, y2) ∈ connectedPositions gIso → x2 < x :=
  C9_isolated_no_rank_side_area gIso (sl ("c")) (by decide)

end DoxToDrawio
